import Mathlib

/-!
Verification of the easy-www static-site build script (`src/build.js`).

The development shallowly embeds the pure core of the script:

* locale catalogs (parsed JSON files) as a tree type `Json`;
* the deep fallback merge `copyMissing` (build.js lines 74-87), including its
  warning log and the `TypeError` it raises when the target holds a string
  primitive where the default holds a non-empty object (the JS `in` operator
  throws on primitives);
* the `safe` Handlebars helper's recursive `sanitize` function
  (build.js lines 131-149) over the parsed HTML fragment tree;
* `trimEndNewline` (lines 67-72) and the `renderMarkdown` helper
  (lines 158-167) with its unguarded `currentResource.releases.noChangelogMessage`
  placeholder access;
* the per-template, per-locale output-path computation of the render loop
  (lines 237-268);
* the overall try/catch pipeline structure (lines 90-276) over an abstract
  environment supplying the outcome of each external operation;
* a heap model of `copyMissing` capturing the in-place mutation of the target
  catalog, for the frame property.
-/

namespace EasyWww

/-- A parsed JSON locale catalog: string leaves or objects.  Object fields are
kept as an insertion-ordered association list, matching the enumeration order
of `for (const key in obj)` on an object obtained from parsing a JSON file. -/
inductive Json where
  | str (s : String)
  | obj (fields : List (String × Json))
deriving Repr

/-- First-occurrence lookup of a field, the semantics of `obj[key]` for own
properties of a plain parsed-JSON object. -/
def lookupJ : List (String × Json) → String → Option Json
  | [], _ => none
  | (k, v) :: rest, key => if k = key then some v else lookupJ rest key

/-- In-place update of an existing field (`obj[key] = v` when `key in obj`):
the key keeps its position. -/
def setJ : List (String × Json) → String → Json → List (String × Json)
  | [], _, _ => []
  | (k, w) :: rest, key, v =>
    if k = key then (k, v) :: rest else (k, w) :: setJ rest key v

/-- Follow a dotted key path (given as its list of segments) through a catalog. -/
def getPath : Json → List String → Option Json
  | j, [] => some j
  | .str _, _ :: _ => none
  | .obj fs, k :: p =>
    match lookupJ fs k with
    | some v => getPath v p
    | none => none

/-- No duplicate keys in a list of field names. -/
def nodupKeysList : List String → Bool
  | [] => true
  | k :: rest => !(rest.contains k) && nodupKeysList rest

/-- Field lists of a catalog whose objects all have pairwise-distinct keys,
as produced by parsing a JSON document. -/
def nodupKeysF : List (String × Json) → Bool
  | [] => true
  | (k, .str _) :: rest =>
    !((rest.map Prod.fst).contains k) && nodupKeysF rest
  | (k, .obj fv) :: rest =>
    !((rest.map Prod.fst).contains k) && nodupKeysF fv && nodupKeysF rest

/-- A catalog whose objects all have pairwise-distinct keys. -/
def nodupKeys : Json → Bool
  | .str _ => true
  | .obj fs => nodupKeysF fs

/-- JS `str.toLowerCase()`, modelled at the character-sequence level. -/
def jsToLower (s : String) : String :=
  ⟨s.data.map Char.toLower⟩

/-- JS `str.endsWith(suffix)`, modelled at the character-sequence level. -/
def jsEndsWith (s suffix : String) : Bool :=
  suffix.data.isSuffixOf s.data

/-- JS `str.slice(0, -n)` (for `n ≤ s.length`) / the effect of replacing the
`n`-character suffix: drop the last `n` characters. -/
def jsDropRight (s : String) (n : Nat) : String :=
  ⟨s.data.take (s.data.length - n)⟩

/-- `trimEndNewline` (build.js 67-72): drop a single trailing newline, if any
(`str.slice(0, -1)` drops the final character). -/
def trimEndNewline (str : String) : String :=
  if jsEndsWith str "\n" then jsDropRight str 1 else str

/-- The static configuration object (build.js 26-35), restricted to the fields
the verified core reads. -/
structure Config where
  defaultLanguage : String
  safeTags : List String
  safeAttributes : List String

def config : Config :=
  { defaultLanguage := "en"
    safeTags := ["b", "i", "br", "code"]
    safeAttributes := [] }

/-!
## The deep merge `copyMissing` (build.js 74-87)

```js
function copyMissing(from, to, toName, keySoFar = '') {
  for (const key in from) {
    if (!(key in to)) {
      log(`Key ${keySoFar}${key} is missing from ${toName}`, 'warning')
      to[key] = from[key];
      continue;
    }
    if (typeof from[key] === 'object') {
      to[key] = copyMissing(from[key], to[key], toName, `${keySoFar}${key}.`);
    }
  }
  return to;
}
```

At every call site `from` is an object (the top-level call passes the parsed
default catalog; the recursive call is guarded by `typeof from[key] ===
'object'`), so the embedding takes `from`'s field list directly.  When `to`
is a string primitive and `from` has at least one key, the very first
`key in to` membership test throws a `TypeError` (the JS `in` operator is not
defined on primitives); that is the `.error` outcome.  The first component of
the result collects the warning messages emitted (in order) before the run
finished or threw.
-/

def copyMissing : List (String × Json) → Json → String → String →
    List String × Except Unit Json
  | [], tgt, _, _ => ([], .ok tgt)
  | (_, _) :: _, .str _, _, _ => ([], .error ())
  | (k, v) :: rest, .obj ts, toName, keySoFar =>
    match lookupJ ts k with
    | none =>
      let r := copyMissing rest (.obj (ts ++ [(k, v)])) toName keySoFar
      (("Key " ++ keySoFar ++ k ++ " is missing from " ++ toName) :: r.1, r.2)
    | some w =>
      match v with
      | .str _ => copyMissing rest (.obj ts) toName keySoFar
      | .obj fv =>
        let r1 := copyMissing fv w toName (keySoFar ++ k ++ ".")
        match r1.2 with
        | .error e => (r1.1, .error e)
        | .ok sub =>
          let r2 := copyMissing rest (.obj (setJ ts k sub)) toName keySoFar
          (r1.1 ++ r2.1, r2.2)

/-!
## The `safe` helper's sanitizer (build.js 127-156)

```js
function sanitize(node) {
  if (node.type === "tag") {
    if (!config.safeTags.includes(node.name.toLowerCase())) {
      return "";
    }
    node.attribs = Object.keys(node.attribs).reduce((acc, attr) => {
      if (config.safeAttributes.includes(attr.toLowerCase())) {
        acc[attr] = node.attribs[attr];
      }
      return acc;
    }, {});
  }
  if (node.children) {
    node.children = node.children.map(sanitize).filter(Boolean);
  }
  return node;
}
```

The helper parses the translated string with `parse5.parseFragment` and walks
the resulting fragment tree.  Modelled from the spec: the parsed fragment is a
tree of element nodes (a tag name, an insertion-ordered attribute mapping and a
child list), text nodes, and a fragment root that only carries children
(`parse5` itself is an external dependency, not part of this repository).
Returning the empty string `""` for a disallowed element is modelled as
`none`; `.map(sanitize).filter(Boolean)` keeps exactly the non-`none` results,
since every node object is truthy and `""` is falsy. -/
inductive HtmlNode where
  | element (name : String) (attribs : List (String × String)) (children : List HtmlNode)
  | text (s : String)
  | root (children : List HtmlNode)
deriving Repr

mutual

def sanitize : HtmlNode → Option HtmlNode
  | .element name attribs children =>
    if config.safeTags.contains (jsToLower name) then
      some (.element name
        (attribs.filter fun a => config.safeAttributes.contains (jsToLower a.1))
        (sanitizeChildren children))
    else
      none
  | .text s => some (.text s)
  | .root children => some (.root (sanitizeChildren children))

def sanitizeChildren : List HtmlNode → List HtmlNode
  | [] => []
  | c :: cs =>
    match sanitize c with
    | none => sanitizeChildren cs
    | some c' => c' :: sanitizeChildren cs

end

mutual

/-- Every element node occurring anywhere in the tree carries an allowlisted
tag name. -/
def allTagsAllowed : HtmlNode → Bool
  | .element name _ children => config.safeTags.contains (jsToLower name) &&
      allTagsAllowedChildren children
  | .text _ => true
  | .root children => allTagsAllowedChildren children

/-- `allTagsAllowed` over a child list. -/
def allTagsAllowedChildren : List HtmlNode → Bool
  | [] => true
  | c :: cs => allTagsAllowed c && allTagsAllowedChildren cs

end

/-!
## The `renderMarkdown` helper (build.js 158-167)

```js
Handlebars.registerHelper("renderMarkdown", function(key) {
  let markdown = i18next.t(key);
  if (markdown === undefined || markdown === '') {
    markdown = `*${currentResource.releases.noChangelogMessage}*`;
  } else {
    markdown = trimEndNewline(markdown);
  }
  const html = converter.makeHtml(markdown);
  return new Handlebars.SafeString(html);
})
```

The translation lookup `i18next.t(key)` and the Markdown converter
`converter.makeHtml` are external libraries; modelled from the spec: the
resolved string value of the key is an `Option String` parameter (`none` for an
absent value) and the converter is an arbitrary function `mk : String → String`.
The placeholder branch dereferences
`currentResource.releases.noChangelogMessage` with no guard: if the
currently-rendering catalog has no `releases` property the inner access reads a
property of `undefined` and throws (`.error`), while a present `releases`
without a `noChangelogMessage` property yields the JS value `undefined`, which
a template literal stringifies as `"undefined"`. -/

/-- How a template literal stringifies the result of the (possibly absent)
property lookup. -/
def jsInterpolate : Option Json → String
  | none => "undefined"
  | some (.str s) => s
  | some (.obj _) => "[object Object]"

/-- `currentResource.releases.noChangelogMessage` as the script evaluates it. -/
def placeholderMessage (currentResource : Json) : Except Unit String :=
  match currentResource with
  | .str _ => .error ()
  | .obj fs =>
    match lookupJ fs "releases" with
    | none => .error ()
    | some (.str _) => .ok (jsInterpolate none)
    | some (.obj rs) => .ok (jsInterpolate (lookupJ rs "noChangelogMessage"))

/-- The `renderMarkdown` helper body.  `mk` is the Markdown-to-HTML converter,
`currentResource` the currently-rendering catalog, `tv` the resolved value of
the translation key. -/
def renderMarkdown (mk : String → String) (currentResource : Json)
    (tv : Option String) : Except Unit String :=
  match tv with
  | none =>
    (placeholderMessage currentResource).map fun m => mk ("*" ++ m ++ "*")
  | some s =>
    if s = "" then
      (placeholderMessage currentResource).map fun m => mk ("*" ++ m ++ "*")
    else
      .ok (mk (trimEndNewline s))

/-!
## Output-path computation of the render loop (build.js 237-268)

For each template (relative path `rel`) and each locale, the loop writes the
rendered content to `path.join('./dist', locale, rel)` and, when the locale is
the configured default language, additionally to `path.join('./dist', rel)`;
an output path ending in `.hbs` has that suffix replaced by `.html`.
`path.join('./dist', x)` normalizes the leading `./` away, yielding
`dist/…`. -/

/-- `.hbs` → `.html` extension normalization applied to a computed output
path (`outputPath.replace(/\.hbs$/, ".html")` under an `endsWith` guard). -/
def normalizeHbs (p : String) : String :=
  if jsEndsWith p ".hbs" then jsDropRight p 4 ++ ".html" else p

/-- The (path, content) writes the loop performs for one locale of one
template.  `html` is the rendered content of this (template, locale) pair. -/
def localeOutputs (html : String) (locale rel : String) : List (String × String) :=
  let o1 := normalizeHbs ("dist/" ++ locale ++ "/" ++ rel)
  if locale = config.defaultLanguage then
    [(o1, html), (normalizeHbs ("dist/" ++ rel), html)]
  else
    [(o1, html)]

/-- All writes for one template over the (sorted) locale list; `render` gives
the content produced by evaluating the compiled template against a locale's
resources. -/
def templateOutputs (render : String → String) (locales : List String)
    (rel : String) : List (String × String) :=
  locales.flatMap fun locale => localeOutputs (render locale) locale rel

/-! ## Sanitizer lemmas -/

theorem sanitize_disallowed (name : String) (attribs : List (String × String))
    (children : List HtmlNode)
    (h : config.safeTags.contains (jsToLower name) = false) :
    sanitize (.element name attribs children) = none := by
  rw [sanitize, h]
  simp

theorem sanitize_allowed (name : String) (attribs : List (String × String))
    (children : List HtmlNode)
    (h : config.safeTags.contains (jsToLower name) = true) :
    sanitize (.element name attribs children) =
      some (.element name
        (attribs.filter fun a => config.safeAttributes.contains (jsToLower a.1))
        (sanitizeChildren children)) := by
  rw [sanitize, h]
  simp

mutual

theorem sanitize_allTags : ∀ t t', sanitize t = some t' → allTagsAllowed t' = true
  | .element name attribs children, t', h => by
    by_cases hc : config.safeTags.contains (jsToLower name) = true
    · rw [sanitize_allowed name attribs children hc] at h
      cases h
      rw [allTagsAllowed, hc]
      simpa using sanitizeChildren_allTags children
    · rw [sanitize_disallowed name attribs children (by simpa using hc)] at h
      cases h
  | .text s, t', h => by
    rw [sanitize] at h
    cases h
    rfl
  | .root children, t', h => by
    rw [sanitize] at h
    cases h
    rw [allTagsAllowed]
    exact sanitizeChildren_allTags children

theorem sanitizeChildren_allTags :
    ∀ cs : List HtmlNode, allTagsAllowedChildren (sanitizeChildren cs) = true
  | [] => rfl
  | c :: cs => by
    rw [sanitizeChildren]
    cases hs : sanitize c with
    | none => exact sanitizeChildren_allTags cs
    | some c' =>
      rw [allTagsAllowedChildren, sanitize_allTags c c' hs]
      simpa using sanitizeChildren_allTags cs

end

/-- Claim C1: for every translated string parsed as an HTML fragment by the
`safe` helper, an element node whose tag name (compared case-insensitively) is
not in the configured tag allowlist is dropped in full: the sanitizer maps it
to the empty result (so neither the element nor any of its descendants, even
allowlisted ones, contributes anything at that position), and no element with
a disallowed tag name ever occurs anywhere in a sanitizer output tree. -/
theorem claim1_disallowed_tag_dropped_in_full :
    (∀ name attribs children,
        config.safeTags.contains (jsToLower name) = false →
        sanitize (.element name attribs children) = none)
    ∧ (∀ t t', sanitize t = some t' → allTagsAllowed t' = true) :=
  ⟨sanitize_disallowed, sanitize_allTags⟩

/-- Witness for C1 at a concrete fragment: a `SCRIPT` element wrapping an
allowlisted `b` child is dropped whole. -/
theorem claim1_disallowed_tag_dropped_in_full_witness :
    config.safeTags.contains (jsToLower "SCRIPT") = false ∧
    sanitize (.element "SCRIPT" [("src", "x")] [.element "b" [] [], .text "hi"]) = none :=
  ⟨by decide,
   claim1_disallowed_tag_dropped_in_full.1 "SCRIPT" [("src", "x")]
     [.element "b" [] [], .text "hi"] (by decide)⟩

/-- Claim C2: an element whose tag name is in the configured allowlist is kept
with its recursively sanitized children, its attribute mapping is rebuilt to
exactly those attributes whose name (case-insensitively) is in the configured
attribute allowlist, and text nodes pass through unchanged. -/
theorem claim2_allowed_tag_keeps_children_filters_attributes :
    (∀ name attribs children,
        config.safeTags.contains (jsToLower name) = true →
        ∃ attribs',
          sanitize (.element name attribs children) =
            some (.element name attribs' (sanitizeChildren children)) ∧
          ∀ a, a ∈ attribs' ↔
            a ∈ attribs ∧ config.safeAttributes.contains (jsToLower a.1) = true)
    ∧ (∀ s, sanitize (.text s) = some (.text s)) := by
  constructor
  · intro name attribs children h
    refine ⟨attribs.filter fun a => config.safeAttributes.contains (jsToLower a.1),
      sanitize_allowed name attribs children h, ?_⟩
    intro a
    simp [List.mem_filter]
  · intro s
    rw [sanitize]

/-- Witness for C2 at a concrete fragment: a `B` element with a disallowed
attribute survives, its attribute is removed, its text child is kept. -/
theorem claim2_allowed_tag_keeps_children_filters_attributes_witness :
    config.safeTags.contains (jsToLower "B") = true ∧
    (∃ attribs',
      sanitize (.element "B" [("onclick", "evil()")] [.text "hi"]) =
        some (.element "B" attribs' (sanitizeChildren [.text "hi"])) ∧
      ∀ a, a ∈ attribs' ↔
        a ∈ [("onclick", "evil()")] ∧
          config.safeAttributes.contains (jsToLower a.1) = true) :=
  ⟨by decide,
   claim2_allowed_tag_keeps_children_filters_attributes.1 "B"
     [("onclick", "evil()")] [.text "hi"] (by decide)⟩

/-! ## renderMarkdown claims -/

instance : DecidableEq (Except Unit String) := fun a b => by
  cases a <;> cases b
  case ok.ok x y => exact decidable_of_iff (x = y) (by simp)
  case error.error x y => exact decidable_of_iff (x = y) (by simp)
  all_goals exact isFalse (by simp)

/-- A catalog carrying a `releases.noChangelogMessage` entry, used as concrete
rendering context. -/
def resEx : Json :=
  .obj [("releases", .obj [("noChangelogMessage", .str "no changelog")])]

/-- A catalog whose `releases` object lacks the `noChangelogMessage` entry. -/
def resNoMsg : Json := .obj [("releases", .obj [])]

theorem getPath_obj (fs : List (String × Json)) (k : String) (p : List String) :
    getPath (.obj fs) (k :: p) =
      match lookupJ fs k with
      | some v => getPath v p
      | none => none := by
  rw [getPath.eq_def]

theorem placeholderMessage_of_getPath (res : Json) (m : String)
    (hpath : getPath res ["releases", "noChangelogMessage"] = some (.str m)) :
    placeholderMessage res = .ok m := by
  cases res with
  | str s => simp [getPath] at hpath
  | obj fs =>
    rw [getPath_obj] at hpath
    cases hrel : lookupJ fs "releases" with
    | none => rw [hrel] at hpath; simp at hpath
    | some r =>
      rw [hrel] at hpath
      simp only at hpath
      cases r with
      | str s => simp [getPath] at hpath
      | obj rs =>
        rw [getPath_obj] at hpath
        cases hmsg : lookupJ rs "noChangelogMessage" with
        | none => rw [hmsg] at hpath; simp at hpath
        | some v =>
          rw [hmsg] at hpath
          simp only [getPath] at hpath
          cases hpath
          simp [placeholderMessage, hrel, hmsg, jsInterpolate]

/-- Claim C6: when the resolved value of a translation key is absent or the
empty string, `renderMarkdown` returns the locale-specific placeholder message,
read directly from the in-memory catalog data under the fixed key path
`releases.noChangelogMessage` (not via the translation lookup), wrapped in
emphasis markup and passed through the Markdown-to-HTML converter. -/
theorem claim6_placeholder_on_absent_or_empty :
    ∀ (mk : String → String) (res : Json) (m : String) (tv : Option String),
      (tv = none ∨ tv = some "") →
      getPath res ["releases", "noChangelogMessage"] = some (.str m) →
      renderMarkdown mk res tv = .ok (mk ("*" ++ m ++ "*")) := by
  intro mk res m tv htv hpath
  have hph := placeholderMessage_of_getPath res m hpath
  rcases htv with rfl | rfl <;> simp [renderMarkdown, hph, Except.map]

/-- Witness for C6 at a concrete catalog and an absent key value. -/
theorem claim6_placeholder_on_absent_or_empty_witness :
    getPath resEx ["releases", "noChangelogMessage"] = some (.str "no changelog") ∧
    renderMarkdown id resEx none = .ok "*no changelog*" :=
  ⟨rfl,
   claim6_placeholder_on_absent_or_empty id resEx "no changelog" none
     (Or.inl rfl) rfl⟩

/-- Counterexample to C8 as stated: `"\n"` is a non-empty resolved value ending
in a trailing newline, yet `renderMarkdown` on it (which yields the converted
empty string) differs from `renderMarkdown` on the value with that newline
removed (the empty string, which takes the placeholder branch instead). -/
theorem claim8_counterexample_newline_only_value :
    ("\n" : String) ≠ "" ∧ jsEndsWith "\n" "\n" = true ∧
    jsDropRight "\n" 1 = "" ∧
    renderMarkdown id resEx (some "\n") ≠
      renderMarkdown id resEx (some (jsDropRight "\n" 1)) := by
  refine ⟨by decide, by decide, by decide, by decide⟩

/-- Claim C8 (amended): for every resolved non-empty string value ending in
exactly one trailing newline whose stripped form is still non-empty,
`renderMarkdown` produces output identical to running it on the value with
that single trailing newline removed; and `trimEndNewline` strips exactly one
trailing terminator, so a value ending in two newlines retains one. -/
theorem claim8_amended_strip_single_trailing_newline :
    (∀ (mk : String → String) (res : Json) (s : String),
        jsEndsWith s "\n" = true →
        jsEndsWith (jsDropRight s 1) "\n" = false →
        jsDropRight s 1 ≠ "" →
        renderMarkdown mk res (some s) =
          renderMarkdown mk res (some (jsDropRight s 1)))
    ∧ (∀ s, jsEndsWith s "\n" = true → trimEndNewline s = jsDropRight s 1) := by
  have htrim : ∀ s, jsEndsWith s "\n" = true → trimEndNewline s = jsDropRight s 1 := by
    intro s h
    rw [trimEndNewline, h]
    simp
  refine ⟨?_, htrim⟩
  intro mk res s h1 h2 h3
  have hs : s ≠ "" := by
    intro he
    subst he
    exact absurd h1 (by decide)
  rw [renderMarkdown, renderMarkdown, if_neg hs, if_neg h3, htrim s h1,
    trimEndNewline, h2]
  simp

/-- Witness for the amended C8 at the concrete value `"a\n"`. -/
theorem claim8_amended_strip_single_trailing_newline_witness :
    jsEndsWith "a\n" "\n" = true ∧
    jsEndsWith (jsDropRight "a\n" 1) "\n" = false ∧
    jsDropRight "a\n" 1 ≠ "" ∧
    renderMarkdown id resEx (some "a\n") =
      renderMarkdown id resEx (some (jsDropRight "a\n" 1)) :=
  ⟨by decide, by decide, by decide,
   claim8_amended_strip_single_trailing_newline.1 id resEx "a\n"
     (by decide) (by decide) (by decide)⟩

/-- Counterexample to C10 as stated: a catalog whose `releases` object merely
lacks the `noChangelogMessage` entry does not satisfy the precondition, yet
the placeholder branch does not fail — it renders the JS value `undefined` as
the text `undefined`. -/
theorem claim10_counterexample_no_failure_without_precondition :
    getPath resNoMsg ["releases", "noChangelogMessage"] = none ∧
    renderMarkdown id resNoMsg none = .ok "*undefined*" :=
  ⟨rfl, rfl⟩

/-- Claim C10 (amended): the placeholder branch dereferences the fixed path
`releases.noChangelogMessage` on the currently-rendering catalog without any
guard.  Whenever the catalog has a `releases` entry the helper is total and
never throws (even if `noChangelogMessage` is missing, in which case the
placeholder renders the text `undefined`); when the catalog has no `releases`
entry and the placeholder branch is taken, the access throws, failing the
build. -/
theorem claim10_amended_unguarded_placeholder_access :
    (∀ (mk : String → String) (res : Json) (tv : Option String) (v : Json),
        getPath res ["releases"] = some v →
        ∃ r, renderMarkdown mk res tv = .ok r)
    ∧ (∀ (mk : String → String) (fs : List (String × Json)) (tv : Option String),
        lookupJ fs "releases" = none → (tv = none ∨ tv = some "") →
        renderMarkdown mk (.obj fs) tv = .error ())
    ∧ (∀ (mk : String → String) (fs rs : List (String × Json)) (tv : Option String),
        lookupJ fs "releases" = some (.obj rs) →
        lookupJ rs "noChangelogMessage" = none →
        (tv = none ∨ tv = some "") →
        renderMarkdown mk (.obj fs) tv = .ok (mk ("*" ++ "undefined" ++ "*"))) := by
  refine ⟨?_, ?_, ?_⟩
  · intro mk res tv v hrel
    have hph : ∃ m, placeholderMessage res = .ok m := by
      cases res with
      | str s => simp [getPath] at hrel
      | obj fs =>
        rw [getPath_obj] at hrel
        cases hl : lookupJ fs "releases" with
        | none => rw [hl] at hrel; simp at hrel
        | some r =>
          cases r with
          | str s => exact ⟨jsInterpolate none, by simp [placeholderMessage, hl]⟩
          | obj rs =>
            exact ⟨jsInterpolate (lookupJ rs "noChangelogMessage"),
              by simp [placeholderMessage, hl]⟩
    obtain ⟨m, hm⟩ := hph
    cases tv with
    | none => exact ⟨mk ("*" ++ m ++ "*"), by simp [renderMarkdown, hm, Except.map]⟩
    | some s =>
      by_cases hse : s = ""
      · subst hse
        exact ⟨mk ("*" ++ m ++ "*"), by simp [renderMarkdown, hm, Except.map]⟩
      · exact ⟨mk (trimEndNewline s), by simp [renderMarkdown, hse]⟩
  · intro mk fs tv hl htv
    rcases htv with rfl | rfl <;> simp [renderMarkdown, placeholderMessage, hl, Except.map]
  · intro mk fs rs tv hl hmsg htv
    rcases htv with rfl | rfl <;>
      simp [renderMarkdown, placeholderMessage, hl, hmsg, jsInterpolate, Except.map]

/-- Witness for the amended C10 at concrete catalogs. -/
theorem claim10_amended_unguarded_placeholder_access_witness :
    lookupJ [("releases", Json.obj [])] "releases" = some (.obj []) ∧
    lookupJ ([] : List (String × Json)) "noChangelogMessage" = none ∧
    renderMarkdown id (.obj [("releases", Json.obj [])]) none =
      .ok ("*" ++ "undefined" ++ "*") :=
  ⟨rfl, rfl,
   claim10_amended_unguarded_placeholder_access.2.2 id
     [("releases", Json.obj [])] [] none rfl rfl (Or.inl rfl)⟩

/-! ## Output-path claims (C5) -/

theorem normalizeHbs_data (p : String) :
    (normalizeHbs p).data =
      if ".hbs".data.isSuffixOf p.data
      then p.data.take (p.data.length - 4) ++ ".html".data
      else p.data := by
  rw [normalizeHbs, jsEndsWith]
  split
  · rw [String.data_append]; rfl
  · rfl

theorem take_length_sub_four (t rest : List Char) (hrest : rest.length = 4) :
    (t ++ rest).take ((t ++ rest).length - 4) = t := by
  rw [List.length_append, hrest, Nat.add_sub_cancel]
  exact List.take_left t rest

/-- Two equal-length prefixes with different contents keep the two normalized
paths apart, for every common remainder. -/
theorem normalizeHbs_append_ne (pre1 pre2 rel : String)
    (hlen : pre1.data.length = pre2.data.length)
    (hne : pre1.data ≠ pre2.data) :
    normalizeHbs (pre1 ++ rel) ≠ normalizeHbs (pre2 ++ rel) := by
  intro h
  have hd := congrArg String.data h
  rw [normalizeHbs_data, normalizeHbs_data, String.data_append,
    String.data_append] at hd
  by_cases h1 : ".hbs".data.isSuffixOf (pre1.data ++ rel.data) = true
  · obtain ⟨t1, ht1⟩ := List.isSuffixOf_iff_suffix.mp h1
    have k1 : (pre1.data ++ rel.data).take ((pre1.data ++ rel.data).length - 4) = t1 := by
      rw [← ht1]; exact take_length_sub_four t1 _ (by decide)
    by_cases h2 : ".hbs".data.isSuffixOf (pre2.data ++ rel.data) = true
    · obtain ⟨t2, ht2⟩ := List.isSuffixOf_iff_suffix.mp h2
      have k2 : (pre2.data ++ rel.data).take ((pre2.data ++ rel.data).length - 4) = t2 := by
        rw [← ht2]; exact take_length_sub_four t2 _ (by decide)
      rw [if_pos h1, if_pos h2, k1, k2] at hd
      have ht : t1 = t2 := List.append_cancel_right hd
      rw [ht, ht2] at ht1
      exact hne (List.append_cancel_right ht1.symm)
    · rw [if_pos h1, if_neg h2, k1] at hd
      have hld := congrArg List.length hd
      have hl1 := congrArg List.length ht1
      rw [List.length_append, List.length_append] at hld
      rw [List.length_append, List.length_append] at hl1
      have hhtml : (".html".data).length = 5 := by decide
      have hhbs : (".hbs".data).length = 4 := by decide
      rw [hhtml] at hld
      rw [hhbs] at hl1
      omega
  · by_cases h2 : ".hbs".data.isSuffixOf (pre2.data ++ rel.data) = true
    · obtain ⟨t2, ht2⟩ := List.isSuffixOf_iff_suffix.mp h2
      have k2 : (pre2.data ++ rel.data).take ((pre2.data ++ rel.data).length - 4) = t2 := by
        rw [← ht2]; exact take_length_sub_four t2 _ (by decide)
      rw [if_neg h1, if_pos h2, k2] at hd
      have hld := congrArg List.length hd
      have hl2 := congrArg List.length ht2
      rw [List.length_append, List.length_append] at hld
      rw [List.length_append, List.length_append] at hl2
      have hhtml : (".html".data).length = 5 := by decide
      have hhbs : (".hbs".data).length = 4 := by decide
      rw [hhtml] at hld
      rw [hhbs] at hl2
      omega
    · rw [if_neg h1, if_neg h2] at hd
      exact hne (List.append_cancel_right hd)

/-- Prefixes whose lengths are at least two apart keep the two normalized
paths apart, for every common remainder. -/
theorem normalizeHbs_append_ne_of_far (pre1 pre2 rel : String)
    (hfar : pre1.data.length + 2 ≤ pre2.data.length ∨
      pre2.data.length + 2 ≤ pre1.data.length) :
    normalizeHbs (pre1 ++ rel) ≠ normalizeHbs (pre2 ++ rel) := by
  intro h
  have hd := congrArg String.data h
  rw [normalizeHbs_data, normalizeHbs_data, String.data_append,
    String.data_append] at hd
  have hhtml : (".html".data).length = 5 := by decide
  have hhbs : (".hbs".data).length = 4 := by decide
  by_cases h1 : ".hbs".data.isSuffixOf (pre1.data ++ rel.data) = true
  · obtain ⟨t1, ht1⟩ := List.isSuffixOf_iff_suffix.mp h1
    have k1 : (pre1.data ++ rel.data).take ((pre1.data ++ rel.data).length - 4) = t1 := by
      rw [← ht1]; exact take_length_sub_four t1 _ (by decide)
    have hl1 := congrArg List.length ht1
    rw [List.length_append, List.length_append, hhbs] at hl1
    by_cases h2 : ".hbs".data.isSuffixOf (pre2.data ++ rel.data) = true
    · obtain ⟨t2, ht2⟩ := List.isSuffixOf_iff_suffix.mp h2
      have k2 : (pre2.data ++ rel.data).take ((pre2.data ++ rel.data).length - 4) = t2 := by
        rw [← ht2]; exact take_length_sub_four t2 _ (by decide)
      have hl2 := congrArg List.length ht2
      rw [List.length_append, List.length_append, hhbs] at hl2
      rw [if_pos h1, if_pos h2, k1, k2] at hd
      have hld := congrArg List.length hd
      rw [List.length_append, List.length_append, hhtml] at hld
      omega
    · rw [if_pos h1, if_neg h2, k1] at hd
      have hld := congrArg List.length hd
      rw [List.length_append, List.length_append, hhtml] at hld
      omega
  · by_cases h2 : ".hbs".data.isSuffixOf (pre2.data ++ rel.data) = true
    · obtain ⟨t2, ht2⟩ := List.isSuffixOf_iff_suffix.mp h2
      have k2 : (pre2.data ++ rel.data).take ((pre2.data ++ rel.data).length - 4) = t2 := by
        rw [← ht2]; exact take_length_sub_four t2 _ (by decide)
      have hl2 := congrArg List.length ht2
      rw [List.length_append, List.length_append, hhbs] at hl2
      rw [if_neg h1, if_pos h2, k2] at hd
      have hld := congrArg List.length hd
      rw [List.length_append, List.length_append, hhtml] at hld
      omega
    · rw [if_neg h1, if_neg h2] at hd
      have hld := congrArg List.length hd
      rw [List.length_append, List.length_append] at hld
      omega

/-- Claim C5: for a localized template at relative path `rel` and the sorted
locale set `de, en` with default `en`, the render loop writes exactly three
artifacts — `dist/de/rel`, `dist/en/rel` and `dist/rel` (extension normalized
to `.html`) — with pairwise-distinct paths, and the unprefixed artifact's
content is the very same rendered string as the `en`-prefixed artifact's. -/
theorem claim5_three_artifacts_unprefixed_equals_default :
    ∀ (render : String → String) (rel : String),
      templateOutputs render ["de", "en"] rel =
        [(normalizeHbs ("dist/de/" ++ rel), render "de"),
         (normalizeHbs ("dist/en/" ++ rel), render "en"),
         (normalizeHbs ("dist/" ++ rel), render "en")]
      ∧ normalizeHbs ("dist/de/" ++ rel) ≠ normalizeHbs ("dist/en/" ++ rel)
      ∧ normalizeHbs ("dist/de/" ++ rel) ≠ normalizeHbs ("dist/" ++ rel)
      ∧ normalizeHbs ("dist/en/" ++ rel) ≠ normalizeHbs ("dist/" ++ rel) := by
  intro render rel
  have hde : ("dist/" ++ ("de" ++ ("/" ++ rel)) : String) = "dist/de/" ++ rel := by
    apply String.ext
    simp [String.data_append]
  have hen : ("dist/" ++ ("en" ++ ("/" ++ rel)) : String) = "dist/en/" ++ rel := by
    apply String.ext
    simp [String.data_append]
  refine ⟨?_, ?_, ?_, ?_⟩
  · simp only [templateOutputs, localeOutputs, List.flatMap_cons, List.flatMap_nil]
    rw [if_neg (by decide : ¬ ("de" : String) = config.defaultLanguage),
      if_pos (by decide : ("en" : String) = config.defaultLanguage)]
    simp [hde, hen]
  · exact normalizeHbs_append_ne "dist/de/" "dist/en/" rel (by decide) (by decide)
  · exact normalizeHbs_append_ne_of_far "dist/de/" "dist/" rel (by decide)
  · exact normalizeHbs_append_ne_of_far "dist/en/" "dist/" rel (by decide)

/-! ## Association-list lemmas for the merge -/

theorem lookupJ_append_ne (ts : List (String × Json)) (k key : String) (v : Json)
    (h : key ≠ k) : lookupJ (ts ++ [(k, v)]) key = lookupJ ts key := by
  induction ts with
  | nil => simp [lookupJ, Ne.symm h]
  | cons hd tl ih =>
    obtain ⟨k', v'⟩ := hd
    by_cases hk : k' = key
    · simp [lookupJ, hk]
    · simp [lookupJ, hk, ih]

theorem lookupJ_append_self (ts : List (String × Json)) (k : String) (v : Json)
    (h : lookupJ ts k = none) : lookupJ (ts ++ [(k, v)]) k = some v := by
  induction ts with
  | nil => simp [lookupJ]
  | cons hd tl ih =>
    obtain ⟨k', v'⟩ := hd
    rw [lookupJ] at h
    by_cases hk : k' = k
    · rw [if_pos hk] at h; cases h
    · rw [if_neg hk] at h
      simpa [lookupJ, hk] using ih h

theorem lookupJ_setJ_ne (ts : List (String × Json)) (k key : String) (sub : Json)
    (h : key ≠ k) : lookupJ (setJ ts k sub) key = lookupJ ts key := by
  induction ts with
  | nil => simp [setJ]
  | cons hd tl ih =>
    obtain ⟨k', v'⟩ := hd
    by_cases hk : k' = k
    · subst hk
      simp [setJ, lookupJ, Ne.symm h]
    · by_cases hky : k' = key
      · simp [setJ, lookupJ, hk, hky, h]
      · simp [setJ, lookupJ, hk, hky, ih]

theorem lookupJ_setJ_self (ts : List (String × Json)) (k : String) (sub w : Json)
    (h : lookupJ ts k = some w) : lookupJ (setJ ts k sub) k = some sub := by
  induction ts with
  | nil => rw [lookupJ] at h; cases h
  | cons hd tl ih =>
    obtain ⟨k', v'⟩ := hd
    rw [lookupJ] at h
    by_cases hk : k' = k
    · simp [setJ, lookupJ, hk]
    · rw [if_neg hk] at h
      simp [setJ, lookupJ, hk, ih h]

theorem nodupKeys_cons (k : String) (v : Json) (rest : List (String × Json))
    (h : nodupKeys (.obj ((k, v) :: rest)) = true) :
    (rest.map Prod.fst).contains k = false ∧ nodupKeys v = true ∧
      nodupKeys (.obj rest) = true := by
  cases v with
  | str s =>
    rw [nodupKeys, nodupKeysF] at h
    simp only [Bool.and_eq_true, Bool.not_eq_true'] at h
    exact ⟨h.1, rfl, by rw [nodupKeys]; exact h.2⟩
  | obj fv =>
    rw [nodupKeys, nodupKeysF] at h
    simp only [Bool.and_eq_true, Bool.not_eq_true'] at h
    exact ⟨h.1.1, by rw [nodupKeys]; exact h.1.2, by rw [nodupKeys]; exact h.2⟩

theorem lookupJ_eq_none_of_contains_false (ff : List (String × Json)) (key : String)
    (h : (ff.map Prod.fst).contains key = false) : lookupJ ff key = none := by
  induction ff with
  | nil => rfl
  | cons hd tl ih =>
    obtain ⟨k, v⟩ := hd
    simp only [List.map_cons, List.contains_cons, Bool.or_eq_false_iff] at h
    have hk : k ≠ key := by
      intro he
      subst he
      simp at h
    simp [lookupJ, hk, ih h.2]

/-- A successful merge leaves the target an object and does not touch any
top-level key outside the default's key list. -/
theorem copyMissing_preserves :
    ∀ (ff ts : List (String × Json)) (n ks : String) (merged : Json),
      (copyMissing ff (.obj ts) n ks).2 = .ok merged →
      ∃ ms, merged = .obj ms ∧
        ∀ key, (ff.map Prod.fst).contains key = false →
          lookupJ ms key = lookupJ ts key
  | [], ts, n, ks, merged, h => by
    rw [copyMissing] at h
    cases h
    exact ⟨ts, rfl, fun _ _ => rfl⟩
  | (k, v) :: rest, ts, n, ks, merged, h => by
    rw [copyMissing] at h
    cases hl : lookupJ ts k with
    | none =>
      rw [hl] at h
      simp only at h
      obtain ⟨ms, hms, hpres⟩ := copyMissing_preserves rest (ts ++ [(k, v)]) n ks merged h
      refine ⟨ms, hms, fun key hkey => ?_⟩
      simp only [List.map_cons, List.contains_cons, Bool.or_eq_false_iff] at hkey
      have hk : key ≠ k := by
        intro he
        subst he
        simp at hkey
      rw [hpres key hkey.2, lookupJ_append_ne ts k key v hk]
    | some w =>
      rw [hl] at h
      cases v with
      | str s0 =>
        simp only at h
        obtain ⟨ms, hms, hpres⟩ := copyMissing_preserves rest ts n ks merged h
        refine ⟨ms, hms, fun key hkey => ?_⟩
        simp only [List.map_cons, List.contains_cons, Bool.or_eq_false_iff] at hkey
        exact hpres key hkey.2
      | obj fv =>
        simp only at h
        cases hr1 : (copyMissing fv w n (ks ++ k ++ ".")).2 with
        | error e => rw [hr1] at h; cases h
        | ok sub =>
          rw [hr1] at h
          simp only at h
          obtain ⟨ms, hms, hpres⟩ :=
            copyMissing_preserves rest (setJ ts k sub) n ks merged h
          refine ⟨ms, hms, fun key hkey => ?_⟩
          simp only [List.map_cons, List.contains_cons, Bool.or_eq_false_iff] at hkey
          have hk : key ≠ k := by
            intro he
            subst he
            simp at hkey
          rw [hpres key hkey.2, lookupJ_setJ_ne ts k key sub hk]

/-- Core correctness of `copyMissing`: a successful merge yields, at every
dotted leaf path of the default catalog, the target's own original value if
the target had the path, and the default's leaf value otherwise. -/
theorem copyMissing_getPath :
    ∀ (ff : List (String × Json)) (tgt : Json) (n ks : String) (merged : Json),
      nodupKeys (.obj ff) = true →
      (copyMissing ff tgt n ks).2 = .ok merged →
      ∀ (p : List String) (s : String),
        getPath (.obj ff) p = some (.str s) →
        getPath merged p = some ((getPath tgt p).getD (.str s))
  | [], tgt, n, ks, merged, hnd, h, p, s, hp => by
    cases p with
    | nil => rw [getPath] at hp; cases hp
    | cons key p' => rw [getPath_obj] at hp; rw [lookupJ] at hp; simp at hp
  | (k, v) :: rest, tgt, n, ks, merged, hnd, h, p, s, hp => by
    obtain ⟨hkc, hndv, hndrest⟩ := nodupKeys_cons k v rest hnd
    cases tgt with
    | str s1 => rw [copyMissing] at h; cases h
    | obj ts =>
      rw [copyMissing] at h
      cases p with
      | nil => rw [getPath] at hp; cases hp
      | cons key p' =>
        rw [getPath_obj] at hp
        rw [lookupJ] at hp
        by_cases hkey : k = key
        · -- the path goes through the head key
          subst hkey
          rw [if_pos rfl] at hp
          simp only at hp
          -- hp : getPath v p' = some (.str s)
          cases hl : lookupJ ts k with
          | none =>
            rw [hl] at h
            simp only at h
            obtain ⟨ms, hms, hpres⟩ :=
              copyMissing_preserves rest (ts ++ [(k, v)]) n ks merged h
            subst hms
            have hmk : lookupJ ms k = some v := by
              rw [hpres k hkc, lookupJ_append_self ts k v hl]
            rw [getPath_obj, hmk]
            simp only
            rw [hp, getPath_obj, hl]
            simp
          | some w =>
            rw [hl] at h
            cases v with
            | str s0 =>
              simp only at h
              cases p' with
              | cons x xs => rw [getPath] at hp; cases hp
              | nil =>
                rw [getPath] at hp
                have hs : s0 = s := by simpa using hp
                subst hs
                obtain ⟨ms, hms, hpres⟩ :=
                  copyMissing_preserves rest ts n ks merged h
                subst hms
                have hmk : lookupJ ms k = some w := by
                  rw [hpres k hkc, hl]
                rw [getPath_obj, hmk, getPath_obj, hl]
                simp [getPath]
            | obj fv =>
              simp only at h
              cases hr1 : (copyMissing fv w n (ks ++ k ++ ".")).2 with
              | error e => rw [hr1] at h; cases h
              | ok sub =>
                rw [hr1] at h
                simp only at h
                obtain ⟨ms, hms, hpres⟩ :=
                  copyMissing_preserves rest (setJ ts k sub) n ks merged h
                subst hms
                have hmk : lookupJ ms k = some sub := by
                  rw [hpres k hkc, lookupJ_setJ_self ts k sub w hl]
                have hsub := copyMissing_getPath fv w n (ks ++ k ++ ".") sub
                  hndv hr1 p' s hp
                rw [getPath_obj, hmk]
                simp only
                rw [hsub, getPath_obj, hl]
        · -- the path goes through a later key
          rw [if_neg hkey] at hp
          -- the path lives in `rest`
          have hprest : getPath (.obj rest) (key :: p') = some (.str s) := by
            rw [getPath_obj]
            exact hp
          have hne : key ≠ k := fun he => hkey he.symm
          cases hl : lookupJ ts k with
          | none =>
            rw [hl] at h
            simp only at h
            have := copyMissing_getPath rest (.obj (ts ++ [(k, v)])) n ks merged
              hndrest h (key :: p') s hprest
            rw [this, getPath_obj, getPath_obj, lookupJ_append_ne ts k key v hne]
          | some w =>
            rw [hl] at h
            cases v with
            | str s0 =>
              simp only at h
              exact copyMissing_getPath rest (.obj ts) n ks merged
                hndrest h (key :: p') s hprest
            | obj fv =>
              simp only at h
              cases hr1 : (copyMissing fv w n (ks ++ k ++ ".")).2 with
              | error e => rw [hr1] at h; cases h
              | ok sub =>
                rw [hr1] at h
                simp only at h
                have := copyMissing_getPath rest (.obj (setJ ts k sub)) n ks merged
                  hndrest h (key :: p') s hprest
                rw [this, getPath_obj, getPath_obj, lookupJ_setJ_ne ts k key sub hne]

/-! ## The warning log of the merge (C4) -/

/-- Dotted rendering of a key path, as built by the `keySoFar` accumulator. -/
def dotted : List String → String
  | [] => ""
  | [k] => k
  | k :: rest => k ++ "." ++ dotted rest

theorem dotted_cons (k : String) (p : List String) (h : p ≠ []) :
    dotted (k :: p) = k ++ "." ++ dotted p := by
  cases p with
  | nil => exact absurd rfl h
  | cons x xs => rfl

/-- The diagnostic message `copyMissing` logs for a backfilled key path. -/
def renderMsg (toName keySoFar : String) (p : List String) : String :=
  "Key " ++ keySoFar ++ dotted p ++ " is missing from " ++ toName

/-- The key paths that a run of `copyMissing` backfills from the default into
the target, in the order their diagnostics are emitted. -/
def backfilledPaths : List (String × Json) → List (String × Json) →
    List (List String)
  | [], _ => []
  | (k, v) :: rest, ts =>
    match lookupJ ts k with
    | none => [k] :: backfilledPaths rest (ts ++ [(k, v)])
    | some w =>
      match v with
      | .str _ => backfilledPaths rest ts
      | .obj fv =>
        match w with
        | .obj ws =>
          (backfilledPaths fv ws).map (fun p => k :: p) ++ backfilledPaths rest ts
        | .str _ => backfilledPaths rest ts

theorem setJ_self (ts : List (String × Json)) (k : String) (w : Json)
    (h : lookupJ ts k = some w) : setJ ts k w = ts := by
  induction ts with
  | nil => rfl
  | cons hd tl ih =>
    obtain ⟨k', v'⟩ := hd
    rw [lookupJ] at h
    by_cases hk : k' = k
    · rw [if_pos hk] at h
      cases h
      subst hk
      simp [setJ]
    · rw [if_neg hk] at h
      simp [setJ, hk, ih h]

/-- `backfilledPaths` only depends on the target through the lookups of the
default's keys. -/
theorem backfilledPaths_congr :
    ∀ (ff ts1 ts2 : List (String × Json)),
      (∀ key, key ∈ ff.map Prod.fst → lookupJ ts1 key = lookupJ ts2 key) →
      backfilledPaths ff ts1 = backfilledPaths ff ts2
  | [], ts1, ts2, _ => by rw [backfilledPaths, backfilledPaths]
  | (k, v) :: rest, ts1, ts2, hagree => by
    have hk : lookupJ ts1 k = lookupJ ts2 k := hagree k (by simp)
    rw [backfilledPaths, backfilledPaths, hk]
    cases hl : lookupJ ts2 k with
    | none =>
      simp only
      rw [backfilledPaths_congr rest (ts1 ++ [(k, v)]) (ts2 ++ [(k, v)]) ?_]
      intro key hkey
      by_cases hkk : key = k
      · subst hkk
        rw [lookupJ_append_self ts1 key v (hk.trans hl),
          lookupJ_append_self ts2 key v hl]
      · rw [lookupJ_append_ne ts1 k key v hkk, lookupJ_append_ne ts2 k key v hkk]
        exact hagree key (by simp [hkey])
    | some w =>
      simp only
      have hrest : ∀ key, key ∈ rest.map Prod.fst →
          lookupJ ts1 key = lookupJ ts2 key :=
        fun key hkey => hagree key (by simp [hkey])
      cases v with
      | str s0 => exact backfilledPaths_congr rest ts1 ts2 hrest
      | obj fv =>
        rw [backfilledPaths_congr rest ts1 ts2 hrest]

/-- Every backfilled path is non-empty and starts with one of the default's
keys. -/
theorem backfilledPaths_head :
    ∀ (ff ts : List (String × Json)) (p : List String),
      p ∈ backfilledPaths ff ts →
      ∃ k' q, p = k' :: q ∧ k' ∈ ff.map Prod.fst
  | [], ts, p, hp => by rw [backfilledPaths] at hp; cases hp
  | (k, v) :: rest, ts, p, hp => by
    rw [backfilledPaths] at hp
    cases hl : lookupJ ts k with
    | none =>
      rw [hl] at hp
      simp only [List.mem_cons] at hp
      rcases hp with rfl | hp
      · exact ⟨k, [], rfl, by simp⟩
      · obtain ⟨k', q, rfl, hk'⟩ := backfilledPaths_head rest (ts ++ [(k, v)]) p hp
        exact ⟨k', q, rfl, by simp [hk']⟩
    | some w =>
      rw [hl] at hp
      cases v with
      | str s0 =>
        simp only at hp
        obtain ⟨k', q, rfl, hk'⟩ := backfilledPaths_head rest ts p hp
        exact ⟨k', q, rfl, by simp [hk']⟩
      | obj fv =>
        simp only at hp
        cases w with
        | str s1 =>
          simp only [List.nil_append] at hp
          obtain ⟨k', q, rfl, hk'⟩ := backfilledPaths_head rest ts p hp
          exact ⟨k', q, rfl, by simp [hk']⟩
        | obj ws =>
          rw [List.mem_append] at hp
          rcases hp with hp | hp
          · obtain ⟨p', hp', rfl⟩ := List.mem_map.mp hp
            exact ⟨k, p', rfl, by simp⟩
          · obtain ⟨k', q, rfl, hk'⟩ := backfilledPaths_head rest ts p hp
            exact ⟨k', q, rfl, by simp [hk']⟩

theorem renderMsg_cons (toName ks k : String) (p : List String) (h : p ≠ []) :
    renderMsg toName ks (k :: p) = renderMsg toName (ks ++ k ++ ".") p := by
  apply String.ext
  rw [renderMsg, renderMsg, dotted_cons k p h]
  simp [String.data_append, List.append_assoc]

/-- The warning log of a successful merge is exactly one rendered message per
backfilled key path, in emission order. -/
theorem copyMissing_log :
    ∀ (ff ts : List (String × Json)) (n ks : String) (merged : Json),
      nodupKeys (.obj ff) = true →
      (copyMissing ff (.obj ts) n ks).2 = .ok merged →
      (copyMissing ff (.obj ts) n ks).1 =
        (backfilledPaths ff ts).map (renderMsg n ks)
  | [], ts, n, ks, merged, _, _ => by
    rw [copyMissing, backfilledPaths]
    rfl
  | (k, v) :: rest, ts, n, ks, merged, hnd, h => by
    obtain ⟨hkc, hndv, hndrest⟩ := nodupKeys_cons k v rest hnd
    rw [copyMissing] at h ⊢
    rw [backfilledPaths]
    cases hl : lookupJ ts k with
    | none =>
      rw [hl] at h
      simp only at h ⊢
      rw [List.map_cons]
      congr 1
      exact copyMissing_log rest (ts ++ [(k, v)]) n ks merged hndrest h
    | some w =>
      rw [hl] at h
      simp only at h ⊢
      cases v with
      | str s0 =>
        simp only at h ⊢
        exact copyMissing_log rest ts n ks merged hndrest h
      | obj fv =>
        simp only at h ⊢
        cases hr1 : (copyMissing fv w n (ks ++ k ++ ".")).2 with
        | error e =>
          rw [hr1] at h
          simp only at h
          cases h
        | ok sub =>
          rw [hr1] at h
          simp only at h ⊢
          cases w with
          | obj ws =>
            simp only
            rw [List.map_append]
            congr 1
            · rw [copyMissing_log fv ws n (ks ++ k ++ ".") sub hndv hr1,
                List.map_map]
              refine (List.map_congr_left ?_).symm
              intro p hp
              obtain ⟨k', q, rfl, _⟩ := backfilledPaths_head fv ws p hp
              exact renderMsg_cons n ks k (k' :: q) (by simp)
            · rw [copyMissing_log rest (setJ ts k sub) n ks merged hndrest h]
              congr 1
              apply backfilledPaths_congr
              intro key hkey
              have hne : key ≠ k := by
                intro he
                subst he
                have hc : (List.map Prod.fst rest).contains key = true := by
                  simpa using hkey
                rw [hc] at hkc
                exact absurd hkc (by decide)
              exact lookupJ_setJ_ne ts k key sub hne
          | str s1 =>
            cases fv with
            | cons x xs =>
              rw [copyMissing] at hr1
              cases hr1
            | nil =>
              rw [copyMissing] at hr1
              injection hr1 with hsub
              subst hsub
              simp only [List.nil_append]
              rw [setJ_self ts k (.str s1) hl] at h ⊢
              exact copyMissing_log rest ts n ks merged hndrest h

theorem getPath_cons_self (k : String) (v : Json) (rest : List (String × Json))
    (q : List String) : getPath (.obj ((k, v) :: rest)) (k :: q) = getPath v q := by
  rw [getPath_obj, lookupJ, if_pos rfl]

theorem getPath_cons_ne (k h : String) (v : Json) (rest : List (String × Json))
    (q : List String) (hne : k ≠ h) :
    getPath (.obj ((k, v) :: rest)) (h :: q) = getPath (.obj rest) (h :: q) := by
  rw [getPath_obj, getPath_obj, lookupJ, if_neg hne]

theorem getPath_append_ne (ts : List (String × Json)) (k h : String) (v : Json)
    (q : List String) (hne : h ≠ k) :
    getPath (.obj (ts ++ [(k, v)])) (h :: q) = getPath (.obj ts) (h :: q) := by
  rw [getPath_obj, getPath_obj, lookupJ_append_ne ts k h v hne]

theorem getPath_setJ_ne (ts : List (String × Json)) (k h : String) (sub : Json)
    (q : List String) (hne : h ≠ k) :
    getPath (.obj (setJ ts k sub)) (h :: q) = getPath (.obj ts) (h :: q) := by
  rw [getPath_obj, getPath_obj, lookupJ_setJ_ne ts k h sub hne]

/-- Distinct backfilled paths stay distinct: under duplicate-free default keys
the emitted path list has no duplicates. -/
theorem backfilledPaths_nodup :
    ∀ (ff ts : List (String × Json)),
      nodupKeys (.obj ff) = true → (backfilledPaths ff ts).Nodup
  | [], ts, _ => by rw [backfilledPaths]; exact List.nodup_nil
  | (k, v) :: rest, ts, hnd => by
    obtain ⟨hkc, hndv, hndrest⟩ := nodupKeys_cons k v rest hnd
    have hknotin : k ∉ rest.map Prod.fst := by simpa using hkc
    rw [backfilledPaths]
    cases hl : lookupJ ts k with
    | none =>
      simp only
      rw [List.nodup_cons]
      refine ⟨?_, backfilledPaths_nodup rest (ts ++ [(k, v)]) hndrest⟩
      intro hmem
      obtain ⟨k', q, he, hk'⟩ := backfilledPaths_head rest (ts ++ [(k, v)]) [k] hmem
      injection he with h1 h2
      subst h1
      exact hknotin hk'
    | some w =>
      cases v with
      | str s0 => simp only; exact backfilledPaths_nodup rest ts hndrest
      | obj fv =>
        cases w with
        | str s1 =>
          simp only [List.nil_append]
          exact backfilledPaths_nodup rest ts hndrest
        | obj ws =>
          simp only
          rw [List.nodup_append]
          refine ⟨List.Nodup.map (fun a b hab => by injection hab)
              (backfilledPaths_nodup fv ws hndv),
            backfilledPaths_nodup rest ts hndrest, ?_⟩
          intro p hp hp2
          obtain ⟨p', hp', rfl⟩ := List.mem_map.mp hp
          obtain ⟨k', q, he, hk'⟩ := backfilledPaths_head rest ts (k :: p') hp2
          injection he with h1 h2
          subst h1
          exact hknotin hk'

/-- Every backfilled path names a leafward position that exists in the
default, is absent in the target, and whose parent exists in the target. -/
theorem backfilledPaths_char_fwd :
    ∀ (ff ts : List (String × Json)) (p : List String),
      nodupKeys (.obj ff) = true →
      p ∈ backfilledPaths ff ts →
      getPath (.obj ff) p ≠ none ∧ getPath (.obj ts) p = none ∧
        getPath (.obj ts) p.dropLast ≠ none
  | [], ts, p, _, hp => by rw [backfilledPaths] at hp; cases hp
  | (k, v) :: rest, ts, p, hnd, hp => by
    obtain ⟨hkc, hndv, hndrest⟩ := nodupKeys_cons k v rest hnd
    have hknotin : k ∉ rest.map Prod.fst := by simpa using hkc
    rw [backfilledPaths] at hp
    cases hl : lookupJ ts k with
    | none =>
      rw [hl] at hp
      simp only [List.mem_cons] at hp
      rcases hp with rfl | hp
      · refine ⟨?_, ?_, ?_⟩
        · rw [getPath_cons_self]
          simp [getPath]
        · rw [getPath_obj, hl]
        · simp [getPath]
      · obtain ⟨h1, h2, h3⟩ :=
          backfilledPaths_char_fwd rest (ts ++ [(k, v)]) p hndrest hp
        obtain ⟨k', q, rfl, hk'⟩ := backfilledPaths_head rest (ts ++ [(k, v)]) _ hp
        have hne : k' ≠ k := fun he => hknotin (he ▸ hk')
        refine ⟨?_, ?_, ?_⟩
        · rw [getPath_cons_ne k k' v rest q (Ne.symm hne)]
          exact h1
        · rw [← getPath_append_ne ts k k' v q hne]
          exact h2
        · cases q with
          | nil => simp [getPath]
          | cons x xs =>
            rw [show (k' :: x :: xs).dropLast = k' :: (x :: xs).dropLast from rfl]
              at h3 ⊢
            rw [← getPath_append_ne ts k k' v _ hne]
            exact h3
    | some w =>
      rw [hl] at hp
      have hrestCase : p ∈ backfilledPaths rest ts →
          getPath (.obj ((k, v) :: rest)) p ≠ none ∧
          getPath (.obj ts) p = none ∧ getPath (.obj ts) p.dropLast ≠ none := by
        intro hp'
        obtain ⟨h1, h2, h3⟩ := backfilledPaths_char_fwd rest ts p hndrest hp'
        obtain ⟨k', q, rfl, hk'⟩ := backfilledPaths_head rest ts _ hp'
        have hne : k' ≠ k := fun he => hknotin (he ▸ hk')
        refine ⟨?_, h2, h3⟩
        rw [getPath_cons_ne k k' v rest q (Ne.symm hne)]
        exact h1
      cases v with
      | str s0 => exact hrestCase (by simpa using hp)
      | obj fv =>
        cases w with
        | str s1 => exact hrestCase (by simpa using hp)
        | obj ws =>
          simp only [List.mem_append] at hp
          rcases hp with hp | hp
          · obtain ⟨p', hp', rfl⟩ := List.mem_map.mp hp
            obtain ⟨g1, g2, g3⟩ := backfilledPaths_char_fwd fv ws p' hndv hp'
            obtain ⟨x, q', rfl, _⟩ := backfilledPaths_head fv ws _ hp'
            refine ⟨?_, ?_, ?_⟩
            · rw [getPath_cons_self]
              exact g1
            · rw [getPath_obj, hl]
              exact g2
            · rw [show (k :: x :: q').dropLast = k :: (x :: q').dropLast from rfl]
              rw [getPath_obj, hl]
              exact g3
          · exact hrestCase hp

/-- Conversely, on a successful merge every position that exists in the
default, is absent in the target, and whose parent exists in the target, is
backfilled (and hence logged). -/
theorem backfilledPaths_char_rev :
    ∀ (ff ts : List (String × Json)) (n ks : String) (merged : Json)
      (p : List String),
      nodupKeys (.obj ff) = true →
      (copyMissing ff (.obj ts) n ks).2 = .ok merged →
      p ≠ [] →
      getPath (.obj ff) p ≠ none →
      getPath (.obj ts) p = none →
      getPath (.obj ts) p.dropLast ≠ none →
      p ∈ backfilledPaths ff ts
  | [], ts, n, ks, merged, p, _, _, hpne, hfrom, _, _ => by
    cases p with
    | nil => exact absurd rfl hpne
    | cons h q =>
      rw [getPath_obj, lookupJ] at hfrom
      simp at hfrom
  | (k, v) :: rest, ts, n, ks, merged, p, hnd, h, hpne, hfrom, hto, hparent => by
    obtain ⟨hkc, hndv, hndrest⟩ := nodupKeys_cons k v rest hnd
    have hknotin : k ∉ rest.map Prod.fst := by simpa using hkc
    rw [copyMissing] at h
    cases p with
    | nil => exact absurd rfl hpne
    | cons hkey q =>
      rw [backfilledPaths]
      by_cases hhk : hkey = k
      · subst hhk
        cases hl : lookupJ ts hkey with
        | none =>
          simp only
          cases q with
          | nil => exact List.mem_cons_self _ _
          | cons x xs =>
            exfalso
            apply hparent
            rw [show (hkey :: x :: xs).dropLast = hkey :: (x :: xs).dropLast
              from rfl]
            rw [getPath_obj, hl]
        | some w =>
          rw [hl] at h
          simp only at h
          rw [getPath_obj, hl] at hto
          simp only at hto
          cases q with
          | nil => rw [getPath] at hto; cases hto
          | cons x xs =>
            rw [getPath_cons_self] at hfrom
            cases v with
            | str s0 => rw [getPath] at hfrom; simp at hfrom
            | obj fv =>
              simp only at h
              cases hr1 : (copyMissing fv w n (ks ++ hkey ++ ".")).2 with
              | error e =>
                rw [hr1] at h
                simp only at h
                cases h
              | ok sub =>
                rw [hr1] at h
                simp only at h
                cases w with
                | str s1 =>
                  exfalso
                  cases fv with
                  | nil =>
                    rw [getPath_obj, lookupJ] at hfrom
                    simp at hfrom
                  | cons f fs =>
                    rw [copyMissing] at hr1
                    cases hr1
                | obj ws =>
                  simp only
                  have hparent' : getPath (.obj ws) (x :: xs).dropLast ≠ none := by
                    intro hc
                    apply hparent
                    rw [show (hkey :: x :: xs).dropLast =
                      hkey :: (x :: xs).dropLast from rfl]
                    rw [getPath_obj, hl]
                    exact hc
                  have hmem := backfilledPaths_char_rev fv ws n (ks ++ hkey ++ ".")
                    sub (x :: xs) hndv hr1 (by simp) hfrom hto hparent'
                  exact List.mem_append_left _
                    (List.mem_map.mpr ⟨x :: xs, hmem, rfl⟩)
      · have hne : ¬ (k = hkey) := fun he => hhk he.symm
        rw [getPath_cons_ne k hkey v rest q hne] at hfrom
        have hkeyk : hkey ≠ k := hhk
        cases hl : lookupJ ts k with
        | none =>
          rw [hl] at h
          simp only at h ⊢
          refine List.mem_cons_of_mem _ ?_
          refine backfilledPaths_char_rev rest (ts ++ [(k, v)]) n ks merged
            (hkey :: q) hndrest h (by simp) hfrom ?_ ?_
          · rw [getPath_append_ne ts k hkey v q hkeyk]
            exact hto
          · cases q with
            | nil => simp [getPath]
            | cons x xs =>
              rw [show (hkey :: x :: xs).dropLast = hkey :: (x :: xs).dropLast
                from rfl] at hparent ⊢
              rw [getPath_append_ne ts k hkey v _ hkeyk]
              exact hparent
        | some w =>
          rw [hl] at h
          simp only at h
          cases v with
          | str s0 =>
            simp only
            exact backfilledPaths_char_rev rest ts n ks merged
              (hkey :: q) hndrest h (by simp) hfrom hto hparent
          | obj fv =>
            simp only at h
            cases hr1 : (copyMissing fv w n (ks ++ k ++ ".")).2 with
            | error e =>
              rw [hr1] at h
              simp only at h
              cases h
            | ok sub =>
              rw [hr1] at h
              simp only at h
              have hcongr : backfilledPaths rest (setJ ts k sub) =
                  backfilledPaths rest ts := by
                apply backfilledPaths_congr
                intro key hkey'
                have hne' : key ≠ k := fun he => hknotin (he ▸ hkey')
                exact lookupJ_setJ_ne ts k key sub hne'
              have hmem : hkey :: q ∈ backfilledPaths rest (setJ ts k sub) := by
                refine backfilledPaths_char_rev rest (setJ ts k sub) n ks merged
                  (hkey :: q) hndrest h (by simp) hfrom ?_ ?_
                · rw [getPath_setJ_ne ts k hkey sub q hkeyk]
                  exact hto
                · cases q with
                  | nil => simp [getPath]
                  | cons x xs =>
                    rw [show (hkey :: x :: xs).dropLast =
                      hkey :: (x :: xs).dropLast from rfl] at hparent ⊢
                    rw [getPath_setJ_ne ts k hkey sub _ hkeyk]
                    exact hparent
              rw [hcongr] at hmem
              cases w with
              | str s1 => simpa using hmem
              | obj ws => exact List.mem_append_right _ hmem

/-- Claim C3: for every non-default locale (merged by `copyMissing` onto the
default catalog) and every dotted leaf key path of the default catalog, the
merged catalog contains that key path, and its value is the locale's own
original value when the locale had the path and the default's value when it
lacked it — never an absent value. -/
theorem claim3_merged_catalog_covers_default_keys :
    ∀ (dflt : List (String × Json)) (tgt : Json) (localeName : String)
      (merged : Json),
      nodupKeys (.obj dflt) = true →
      (copyMissing dflt tgt localeName "").2 = .ok merged →
      ∀ (p : List String) (s : String),
        getPath (.obj dflt) p = some (.str s) →
        ∃ v, getPath merged p = some v ∧
          (∀ w, getPath tgt p = some w → v = w) ∧
          (getPath tgt p = none → v = .str s) := by
  intro dflt tgt localeName merged hnd h p s hp
  have hm := copyMissing_getPath dflt tgt localeName "" merged hnd h p s hp
  refine ⟨(getPath tgt p).getD (.str s), hm, ?_, ?_⟩
  · intro w hw
    rw [hw]
    rfl
  · intro hw
    rw [hw]
    rfl

/-- A concrete default catalog with a top-level leaf and a nested leaf. -/
def dfltEx : List (String × Json) :=
  [("greeting", .str "Hello"), ("nested", .obj [("a", .str "x")])]

/-- A concrete target locale catalog missing both leaves. -/
def tgtFieldsEx : List (String × Json) := [("nested", .obj [])]

/-- The merge of `dfltEx` onto `tgtFieldsEx`. -/
def mergedEx : Json :=
  .obj [("nested", .obj [("a", .str "x")]), ("greeting", .str "Hello")]

/-- Witness for C3 at the concrete merge, at the nested leaf path. -/
theorem claim3_merged_catalog_covers_default_keys_witness :
    nodupKeys (.obj dfltEx) = true ∧
    (copyMissing dfltEx (.obj tgtFieldsEx) "./locales/de.json" "").2 =
      .ok mergedEx ∧
    getPath (.obj dfltEx) ["nested", "a"] = some (.str "x") ∧
    (∃ v, getPath mergedEx ["nested", "a"] = some v ∧
      (∀ w, getPath (.obj tgtFieldsEx) ["nested", "a"] = some w → v = w) ∧
      (getPath (.obj tgtFieldsEx) ["nested", "a"] = none → v = .str "x")) :=
  ⟨by simp [dfltEx, nodupKeys, nodupKeysF], rfl, rfl,
   claim3_merged_catalog_covers_default_keys dfltEx (.obj tgtFieldsEx)
     "./locales/de.json" mergedEx (by simp [dfltEx, nodupKeys, nodupKeysF]) rfl
     ["nested", "a"] "x" rfl⟩

/-- Claim C4: a successful merge of a non-default locale emits exactly one
warning diagnostic per backfilled key — the log is one rendered message per
element of a duplicate-free list of key paths, each message naming the key's
full dotted path and the target locale, and that list holds exactly the
positions present in the default, absent in the target, whose parent is
present in the target (in particular keys already present in the target emit
no diagnostic).  The log is produced by the merge alone, independent of any
later reads of the catalog. -/
theorem claim4_exactly_one_diagnostic_per_backfilled_key :
    ∀ (dflt ts : List (String × Json)) (toName : String) (merged : Json),
      nodupKeys (.obj dflt) = true →
      (copyMissing dflt (.obj ts) toName "").2 = .ok merged →
      ∃ bp : List (List String),
        (copyMissing dflt (.obj ts) toName "").1 =
          bp.map (fun p => "Key " ++ dotted p ++ " is missing from " ++ toName) ∧
        bp.Nodup ∧
        ∀ p, p ∈ bp ↔
          (p ≠ [] ∧ getPath (.obj dflt) p ≠ none ∧ getPath (.obj ts) p = none ∧
            getPath (.obj ts) p.dropLast ≠ none) := by
  intro dflt ts toName merged hnd h
  refine ⟨backfilledPaths dflt ts, ?_, backfilledPaths_nodup dflt ts hnd, ?_⟩
  · rw [copyMissing_log dflt ts toName "" merged hnd h]
    apply List.map_congr_left
    intro p _
    apply String.ext
    rw [renderMsg]
    simp [String.data_append, show ("" : String).data = [] from rfl]
  · intro p
    constructor
    · intro hp
      obtain ⟨h1, h2, h3⟩ := backfilledPaths_char_fwd dflt ts p hnd hp
      obtain ⟨k', q, rfl, _⟩ := backfilledPaths_head dflt ts p hp
      exact ⟨by simp, h1, h2, h3⟩
    · rintro ⟨hpne, h1, h2, h3⟩
      exact backfilledPaths_char_rev dflt ts toName "" merged p hnd h hpne h1 h2 h3

/-- Witness for C4 at the concrete merge of `dfltEx` onto `tgtFieldsEx`. -/
theorem claim4_exactly_one_diagnostic_per_backfilled_key_witness :
    nodupKeys (.obj dfltEx) = true ∧
    (copyMissing dfltEx (.obj tgtFieldsEx) "./locales/de.json" "").2 =
      .ok mergedEx ∧
    (∃ bp : List (List String),
      (copyMissing dfltEx (.obj tgtFieldsEx) "./locales/de.json" "").1 =
        bp.map (fun p =>
          "Key " ++ dotted p ++ " is missing from " ++ "./locales/de.json") ∧
      bp.Nodup ∧
      ∀ p, p ∈ bp ↔
        (p ≠ [] ∧ getPath (.obj dfltEx) p ≠ none ∧
          getPath (.obj tgtFieldsEx) p = none ∧
          getPath (.obj tgtFieldsEx) p.dropLast ≠ none)) :=
  ⟨by simp [dfltEx, nodupKeys, nodupKeysF], rfl,
   claim4_exactly_one_diagnostic_per_backfilled_key dfltEx tgtFieldsEx
     "./locales/de.json" mergedEx (by simp [dfltEx, nodupKeys, nodupKeysF]) rfl⟩

/-!
## The build pipeline (build.js 90-278)

The whole `build` body runs inside one `try`; the `catch` logs
`Build failed: ${error.message}` and `error.stack` at error severity and calls
`exit(1)`.  External operations (filesystem reads and writes, `i18next.init`,
`Handlebars.compile`, template evaluation) are supplied by an abstract
environment recording each operation's outcome; a thrown JS error is an
`Except.error` carrying its message and stack.  The phases appear in source
order: catalog load and merge, i18next init, helper and partial registration,
output-directory reset, static copy, locale manifest write, then the
per-template per-locale render-and-write loop.  The first component of a phase
result collects the output paths written so far. -/

structure JsError where
  message : String
  stack : String
deriving DecidableEq

structure BuildEnv where
  locales : List String
  defaultCatalog : Except JsError (List (String × Json))
  localeCatalog : String → Except JsError (List (String × Json))
  i18nInit : Except JsError Unit
  componentsPhase : Except JsError Unit
  cleanPhase : Except JsError Unit
  copyPhase : Except JsError (List String)
  manifestPhase : Except JsError (List String)
  templates : List String
  compile : String → Except JsError (String → Except JsError String)
  fsWrite : String → Except JsError Unit

/-- The locale loading loop (build.js 103-114): each non-default locale is
merged onto the default with `copyMissing`; the `TypeError` thrown on a shape
mismatch escapes to the catch block. -/
def mergeLocales (env : BuildEnv) (dflt : List (String × Json)) :
    List String → Except JsError Unit
  | [] => .ok ()
  | locale :: rest =>
    match env.localeCatalog locale with
    | .error e => .error e
    | .ok json =>
      if locale ≠ config.defaultLanguage then
        match (copyMissing dflt (.obj json)
            ("./locales/" ++ locale ++ ".json") "").2 with
        | .error _ => .error ⟨"Cannot use 'in' operator", "TypeError"⟩
        | .ok _ => mergeLocales env dflt rest
      else mergeLocales env dflt rest

def mergePhase (env : BuildEnv) : Except JsError Unit :=
  match env.defaultCatalog with
  | .error e => .error e
  | .ok dflt => mergeLocales env dflt env.locales

/-- The inner render loop (build.js 242-267): render the compiled template for
one locale, write the locale-prefixed artifact, and for the default locale
also the unprefixed artifact. -/
def renderLocales (env : BuildEnv) (render : String → Except JsError String)
    (rel : String) : List String → List String → List String × Except JsError Unit
  | [], ws => (ws, .ok ())
  | locale :: rest, ws =>
    match render locale with
    | .error e => (ws, .error e)
    | .ok _ =>
      let p1 := normalizeHbs ("dist/" ++ locale ++ "/" ++ rel)
      match env.fsWrite p1 with
      | .error e => (ws, .error e)
      | .ok _ =>
        if locale = config.defaultLanguage then
          let p2 := normalizeHbs ("dist/" ++ rel)
          match env.fsWrite p2 with
          | .error e => (ws ++ [p1], .error e)
          | .ok _ => renderLocales env render rel rest (ws ++ [p1, p2])
        else renderLocales env render rel rest (ws ++ [p1])

/-- The outer template loop (build.js 237-268): compile each template once,
then render it for every locale. -/
def renderTemplates (env : BuildEnv) :
    List String → List String → List String × Except JsError Unit
  | [], ws => (ws, .ok ())
  | t :: rest, ws =>
    match env.compile t with
    | .error e => (ws, .error e)
    | .ok render =>
      match renderLocales env render t env.locales ws with
      | (ws', .error e) => (ws', .error e)
      | (ws', .ok _) => renderTemplates env rest ws'

/-- The `try` body, phase by phase in source order. -/
def pipelineBody (env : BuildEnv) : List String × Except JsError Unit :=
  match mergePhase env with
  | .error e => ([], .error e)
  | .ok _ =>
  match env.i18nInit with
  | .error e => ([], .error e)
  | .ok _ =>
  match env.componentsPhase with
  | .error e => ([], .error e)
  | .ok _ =>
  match env.cleanPhase with
  | .error e => ([], .error e)
  | .ok _ =>
  match env.copyPhase with
  | .error e => ([], .error e)
  | .ok copied =>
  match env.manifestPhase with
  | .error e => (copied, .error e)
  | .ok manifests => renderTemplates env env.templates (copied ++ manifests)

structure BuildResult where
  writes : List String
  errorLogs : List (String × String)
  exitCode : Nat
deriving DecidableEq

/-- `build` with its catch block (build.js 271-275): on any escaped error, log
the failure message and the stack at error severity and exit with code 1. -/
def build (env : BuildEnv) : BuildResult :=
  match pipelineBody env with
  | (ws, .ok _) => ⟨ws, [], 0⟩
  | (ws, .error e) =>
    ⟨ws, [("error", "Build failed: " ++ e.message), ("error", e.stack)], 1⟩

theorem renderLocales_ok (env : BuildEnv) (render : String → Except JsError String)
    (rel : String) :
    ∀ (ls ws : List String) (ws' : List String),
      renderLocales env render rel ls ws = (ws', .ok ()) →
      ∀ l ∈ ls, ∃ html, render l = .ok html ∧
        env.fsWrite (normalizeHbs ("dist/" ++ l ++ "/" ++ rel)) = .ok () := by
  intro ls
  induction ls with
  | nil => intro ws ws' _ l hl; cases hl
  | cons locale rest ih =>
    intro ws ws' h l hl
    rw [renderLocales] at h
    cases hr : render locale with
    | error e => rw [hr] at h; simp only at h; cases h
    | ok html =>
      rw [hr] at h
      simp only at h
      cases hw1 : env.fsWrite (normalizeHbs ("dist/" ++ locale ++ "/" ++ rel)) with
      | error e =>
        rw [hw1] at h
        simp only at h
        cases h
      | ok u =>
        rw [hw1] at h
        simp only at h
        rcases List.mem_cons.mp hl with rfl | hl'
        · exact ⟨html, hr, by cases u; exact hw1⟩
        · by_cases hd : locale = config.defaultLanguage
          · rw [if_pos hd] at h
            cases hw2 : env.fsWrite (normalizeHbs ("dist/" ++ rel)) with
            | error e =>
              rw [hw2] at h
              simp only at h
              cases h
            | ok v =>
              rw [hw2] at h
              simp only at h
              exact ih _ _ h l hl'
          · rw [if_neg hd] at h
            exact ih _ _ h l hl'

theorem renderTemplates_ok (env : BuildEnv) :
    ∀ (ts ws : List String) (ws' : List String),
      renderTemplates env ts ws = (ws', .ok ()) →
      ∀ t ∈ ts, ∃ render, env.compile t = .ok render ∧
        ∀ l ∈ env.locales, ∃ html, render l = .ok html ∧
          env.fsWrite (normalizeHbs ("dist/" ++ l ++ "/" ++ t)) = .ok () := by
  intro ts
  induction ts with
  | nil => intro ws ws' _ t ht; cases ht
  | cons t0 rest ih =>
    intro ws ws' h t ht
    rw [renderTemplates] at h
    cases hc : env.compile t0 with
    | error e => rw [hc] at h; simp only at h; cases h
    | ok render =>
      rw [hc] at h
      simp only at h
      cases hrl : renderLocales env render t0 env.locales ws with
      | mk ws1 res =>
        rw [hrl] at h
        cases res with
        | error e => simp only at h; cases h
        | ok u =>
          simp only at h
          rcases List.mem_cons.mp ht with rfl | ht'
          · exact ⟨render, hc, fun l hl =>
              renderLocales_ok env render t env.locales ws ws1
                (by cases u; exact hrl) l hl⟩
          · exact ih _ _ h t ht'

/-- Claim C7: any failure loading the default catalog, any template compile
failure, any filesystem write failure in the output tree, and any exception
escaping rendering abort the remaining pipeline immediately, are logged at
error severity with the failure message and stack, and make the process exit
non-zero.  Stated as: (i) whatever error escapes the try body, the catch
produces exit code 1 with the two error-severity log lines and no further
writes; (ii) a default-catalog failure aborts before anything is written;
(iii) a successful run requires the default catalog load, every template
compile, every per-locale render, and every page write to have succeeded — so
a failure of any of them prevents success, landing in case (i). -/
theorem claim7_fatal_failures_abort_log_exit_nonzero :
    (∀ (env : BuildEnv) (ws : List String) (e : JsError),
        pipelineBody env = (ws, .error e) →
        build env = ⟨ws, [("error", "Build failed: " ++ e.message),
          ("error", e.stack)], 1⟩)
    ∧ (∀ (env : BuildEnv) (e : JsError),
        env.defaultCatalog = .error e → pipelineBody env = ([], .error e))
    ∧ (∀ (env : BuildEnv) (ws : List String),
        pipelineBody env = (ws, .ok ()) →
        (∃ d, env.defaultCatalog = .ok d) ∧
        ∀ t ∈ env.templates, ∃ render, env.compile t = .ok render ∧
          ∀ l ∈ env.locales, ∃ html, render l = .ok html ∧
            env.fsWrite (normalizeHbs ("dist/" ++ l ++ "/" ++ t)) = .ok ()) := by
  refine ⟨?_, ?_, ?_⟩
  · intro env ws e h
    rw [build, h]
  · intro env e h
    rw [pipelineBody, mergePhase, h]
  · intro env ws h
    rw [pipelineBody] at h
    cases hm : mergePhase env with
    | error e => rw [hm] at h; simp only at h; cases h
    | ok u =>
      rw [hm] at h
      simp only at h
      constructor
      · rw [mergePhase] at hm
        cases hd : env.defaultCatalog with
        | error e => rw [hd] at hm; cases hm
        | ok d => exact ⟨d, rfl⟩
      · cases hi : env.i18nInit with
        | error e => rw [hi] at h; simp only at h; cases h
        | ok _ =>
          rw [hi] at h
          simp only at h
          cases hcp : env.componentsPhase with
          | error e => rw [hcp] at h; simp only at h; cases h
          | ok _ =>
            rw [hcp] at h
            simp only at h
            cases hcl : env.cleanPhase with
            | error e => rw [hcl] at h; simp only at h; cases h
            | ok _ =>
              rw [hcl] at h
              simp only at h
              cases hco : env.copyPhase with
              | error e => rw [hco] at h; simp only at h; cases h
              | ok copied =>
                rw [hco] at h
                simp only at h
                cases hma : env.manifestPhase with
                | error e => rw [hma] at h; simp only at h; cases h
                | ok manifests =>
                  rw [hma] at h
                  simp only at h
                  exact renderTemplates_ok env env.templates _ ws h

/-- A fully healthy environment for the witness. -/
def envOk : BuildEnv :=
  { locales := ["de", "en"]
    defaultCatalog := .ok [("greeting", .str "Hello")]
    localeCatalog := fun _ => .ok [("greeting", .str "Hallo")]
    i18nInit := .ok ()
    componentsPhase := .ok ()
    cleanPhase := .ok ()
    copyPhase := .ok ["dist/style.css"]
    manifestPhase := .ok ["dist/resources/locales/de.json",
      "dist/resources/locales/en.json"]
    templates := ["index.hbs"]
    compile := fun _ => .ok fun l => .ok ("<html>" ++ l ++ "</html>")
    fsWrite := fun _ => .ok () }

/-- The same environment but with a missing default catalog. -/
def envBad : BuildEnv :=
  { envOk with defaultCatalog := .error ⟨"ENOENT: no such file", "stack trace"⟩ }

/-- Witness for C7: a missing default catalog aborts before any write, logs
the failure at error severity and exits with code 1. -/
theorem claim7_fatal_failures_abort_log_exit_nonzero_witness :
    envBad.defaultCatalog = .error ⟨"ENOENT: no such file", "stack trace"⟩ ∧
    pipelineBody envBad = ([], .error ⟨"ENOENT: no such file", "stack trace"⟩) ∧
    build envBad =
      ⟨[], [("error", "Build failed: " ++ "ENOENT: no such file"),
        ("error", "stack trace")], 1⟩ :=
  ⟨rfl,
   claim7_fatal_failures_abort_log_exit_nonzero.2.1 envBad
     ⟨"ENOENT: no such file", "stack trace"⟩ rfl,
   claim7_fatal_failures_abort_log_exit_nonzero.1 envBad []
     ⟨"ENOENT: no such file", "stack trace"⟩
     (claim7_fatal_failures_abort_log_exit_nonzero.2.1 envBad
       ⟨"ENOENT: no such file", "stack trace"⟩ rfl)⟩

/-!
## Heap model of `copyMissing` (C9)

The JS engine's object graph: addresses point to string primitives or objects
whose fields hold references.  `to[key] = from[key]` copies a reference, and
`to[key] = copyMissing(from[key], to[key], …)` writes back the same reference
the recursive call returns, so the merge mutates the target graph in place and
performs no allocation.  `fuel` only bounds the recursion depth so that the
model is total on arbitrary (even cyclic) graphs; on the tree-shaped graphs
produced by parsing JSON, sufficient fuel yields the real run. -/

inductive HVal where
  | str (s : String)
  | obj (fields : List (String × Nat))
deriving DecidableEq

abbrev Heap := List HVal

def lookupF : List (String × Nat) → String → Option Nat
  | [], _ => none
  | (k, c) :: rest, key => if k = key then some c else lookupF rest key

/-- `obj[key] = a` when the key is already present: update in place. -/
def setF : List (String × Nat) → String → Nat → List (String × Nat)
  | [], _, _ => []
  | (k, c) :: rest, key, a =>
    if k = key then (k, a) :: rest else (k, c) :: setF rest key a

mutual

def copyMissingH : Nat → Heap → Nat → Nat → Option Heap
  | 0, _, _, _ => none
  | fuel + 1, h, fromA, toA =>
    match h.get? fromA with
    | some (.obj ffs) => copyMissingHLoop fuel h ffs toA
    | _ => none
termination_by fuel _ _ _ => (fuel, 0)

def copyMissingHLoop : Nat → Heap → List (String × Nat) → Nat → Option Heap
  | _, h, [], _ => some h
  | fuel, h, (k, va) :: rest, toA =>
    match h.get? toA with
    | some (.obj tfs) =>
      match lookupF tfs k with
      | none =>
        copyMissingHLoop fuel (h.set toA (.obj (tfs ++ [(k, va)]))) rest toA
      | some wa =>
        match h.get? va with
        | some (.str _) => copyMissingHLoop fuel h rest toA
        | some (.obj _) =>
          match copyMissingH fuel h va wa with
          | none => none
          | some h' =>
            match h'.get? toA with
            | some (.obj tfs') =>
              copyMissingHLoop fuel (h'.set toA (.obj (setF tfs' k wa))) rest toA
            | _ => none
        | none => none
    | _ => none
termination_by fuel _ fl _ => (fuel, fl.length + 1)

end

theorem get?_set_ne (h : Heap) (i j : Nat) (v : HVal) (hne : j ≠ i) :
    (h.set i v).get? j = h.get? j := by
  induction h generalizing i j with
  | nil => rfl
  | cons x xs ih =>
    cases i with
    | zero =>
      cases j with
      | zero => exact absurd rfl hne
      | succ jj => rfl
    | succ ii =>
      cases j with
      | zero => rfl
      | succ jj => exact ih ii jj (fun he => hne (by rw [he]))

theorem get?_set_self (h : Heap) (i : Nat) (v w : HVal)
    (hw : h.get? i = some w) : (h.set i v).get? i = some v := by
  induction h generalizing i with
  | nil => cases hw
  | cons x xs ih =>
    cases i with
    | zero => rfl
    | succ ii => exact ih ii hw

theorem set_same (h : Heap) (i : Nat) (v : HVal) (hv : h.get? i = some v) :
    h.set i v = h := by
  induction h generalizing i with
  | nil => rfl
  | cons x xs ih =>
    cases i with
    | zero =>
      injection hv with hv
      rw [List.set, hv]
    | succ ii =>
      rw [List.set, ih ii hv]

theorem lookupF_append_ne (ts : List (String × Nat)) (k key : String) (a : Nat)
    (h : key ≠ k) : lookupF (ts ++ [(k, a)]) key = lookupF ts key := by
  induction ts with
  | nil => simp [lookupF, Ne.symm h]
  | cons hd tl ih =>
    obtain ⟨k', c'⟩ := hd
    by_cases hk : k' = key
    · simp [lookupF, hk]
    · simp [lookupF, hk, ih]

theorem setF_id (ts : List (String × Nat)) (k : String) (a : Nat)
    (h : lookupF ts k = some a) : setF ts k a = ts := by
  induction ts with
  | nil => rfl
  | cons hd tl ih =>
    obtain ⟨k', c'⟩ := hd
    rw [lookupF] at h
    by_cases hk : k' = k
    · rw [if_pos hk] at h
      injection h with h
      rw [setF, if_pos hk, h]
    · rw [if_neg hk] at h
      rw [setF, if_neg hk, ih h]

mutual

/-- `Enc h a j S`: address `a` of heap `h` roots a tree-shaped object graph
decoding to the catalog `j`, whose set of addresses is exactly the
duplicate-free list `S` (root first). -/
def Enc (h : Heap) : Nat → Json → List Nat → Prop
  | a, .str s, S => h.get? a = some (.str s) ∧ S = [a]
  | a, .obj js, S =>
    ∃ fs S', h.get? a = some (.obj fs) ∧ EncF h fs js S' ∧ a ∉ S' ∧ S = a :: S'

/-- Field lists of an encoded object: aligned keys, per-field encodings with
pairwise-disjoint supports. -/
def EncF (h : Heap) : List (String × Nat) → List (String × Json) → List Nat → Prop
  | fs, [], S => fs = [] ∧ S = []
  | fs, (k, j) :: jrest, S =>
    ∃ c frest Sc Sr, fs = (k, c) :: frest ∧ Enc h c j Sc ∧
      EncF h frest jrest Sr ∧ (∀ a ∈ Sc, a ∉ Sr) ∧ S = Sc ++ Sr

end

mutual

theorem Enc_congr : ∀ (j : Json) (h h' : Heap) (a : Nat) (S : List Nat),
    Enc h a j S → (∀ b ∈ S, h'.get? b = h.get? b) → Enc h' a j S
  | .str s, h, h', a, S, henc, hag => by
    rw [Enc] at henc ⊢
    obtain ⟨h1, rfl⟩ := henc
    exact ⟨by rw [hag a (by simp)]; exact h1, rfl⟩
  | .obj js, h, h', a, S, henc, hag => by
    rw [Enc] at henc ⊢
    obtain ⟨fs, S', h1, h2, h3, rfl⟩ := henc
    refine ⟨fs, S', ?_, EncF_congr js h h' fs S' h2
      (fun b hb => hag b (by simp [hb])), h3, rfl⟩
    rw [hag a (by simp)]
    exact h1

theorem EncF_congr : ∀ (js : List (String × Json)) (h h' : Heap)
    (fs : List (String × Nat)) (S : List Nat),
    EncF h fs js S → (∀ b ∈ S, h'.get? b = h.get? b) → EncF h' fs js S
  | [], h, h', fs, S, henc, _ => by
    rw [EncF] at henc ⊢
    exact henc
  | (k, j) :: jrest, h, h', fs, S, henc, hag => by
    rw [EncF] at henc ⊢
    obtain ⟨c, frest, Sc, Sr, rfl, h2, h3, h4, rfl⟩ := henc
    exact ⟨c, frest, Sc, Sr, rfl,
      Enc_congr j h h' c Sc h2 (fun b hb => hag b (by simp [hb])),
      EncF_congr jrest h h' frest Sr h3 (fun b hb => hag b (by simp [hb])),
      h4, rfl⟩

end

mutual

theorem Enc_unique : ∀ (j1 : Json) (h : Heap) (a : Nat) (S1 : List Nat)
    (j2 : Json) (S2 : List Nat),
    Enc h a j1 S1 → Enc h a j2 S2 → j1 = j2 ∧ S1 = S2
  | .str s, h, a, S1, j2, S2, h1, h2 => by
    rw [Enc] at h1
    obtain ⟨hg1, rfl⟩ := h1
    cases j2 with
    | str s2 =>
      rw [Enc] at h2
      obtain ⟨hg2, rfl⟩ := h2
      rw [hg1] at hg2
      injection hg2 with hg2
      injection hg2 with hg2
      rw [hg2]
      exact ⟨rfl, rfl⟩
    | obj js2 =>
      rw [Enc] at h2
      obtain ⟨fs, S', hg2, _, _, rfl⟩ := h2
      rw [hg1] at hg2
      cases hg2
  | .obj js1, h, a, S1, j2, S2, h1, h2 => by
    rw [Enc] at h1
    obtain ⟨fs1, S1', hg1, he1, _, rfl⟩ := h1
    cases j2 with
    | str s2 =>
      rw [Enc] at h2
      obtain ⟨hg2, rfl⟩ := h2
      rw [hg1] at hg2
      cases hg2
    | obj js2 =>
      rw [Enc] at h2
      obtain ⟨fs2, S2', hg2, he2, _, rfl⟩ := h2
      rw [hg1] at hg2
      injection hg2 with hg2
      injection hg2 with hg2
      subst hg2
      obtain ⟨hj, hS⟩ := EncF_unique js1 h fs1 S1' js2 S2' he1 he2
      rw [hj, hS]
      exact ⟨rfl, rfl⟩

theorem EncF_unique : ∀ (js1 : List (String × Json)) (h : Heap)
    (fs : List (String × Nat)) (S1 : List Nat) (js2 : List (String × Json))
    (S2 : List Nat),
    EncF h fs js1 S1 → EncF h fs js2 S2 → js1 = js2 ∧ S1 = S2
  | [], h, fs, S1, js2, S2, h1, h2 => by
    rw [EncF] at h1
    obtain ⟨rfl, rfl⟩ := h1
    cases js2 with
    | nil =>
      rw [EncF] at h2
      exact ⟨rfl, h2.2.symm⟩
    | cons kj jrest =>
      obtain ⟨k2, j2⟩ := kj
      rw [EncF] at h2
      obtain ⟨c, frest, _, _, hfs, _⟩ := h2
      cases hfs
  | (k1, j1) :: jrest1, h, fs, S1, js2, S2, h1, h2 => by
    rw [EncF] at h1
    obtain ⟨c1, frest1, Sc1, Sr1, rfl, hc1, hr1, _, rfl⟩ := h1
    cases js2 with
    | nil =>
      rw [EncF] at h2
      cases h2.1
    | cons kj jrest2 =>
      obtain ⟨k2, j2⟩ := kj
      rw [EncF] at h2
      obtain ⟨c2, frest2, Sc2, Sr2, hfs, hc2, hr2, _, rfl⟩ := h2
      injection hfs with hfs1 hfs2
      injection hfs1 with hk hc
      subst hk
      subst hfs2
      subst hc
      obtain ⟨hj, hS⟩ := Enc_unique j1 h c1 Sc1 j2 Sc2 hc1 hc2
      obtain ⟨hjr, hSr⟩ := EncF_unique jrest1 h frest1 Sr1 jrest2 Sr2 hr1 hr2
      rw [hj, hS, hjr, hSr]
      exact ⟨rfl, rfl⟩

end

theorem EncF_keys : ∀ (js : List (String × Json)) (h : Heap)
    (fs : List (String × Nat)) (S : List Nat),
    EncF h fs js S → fs.map Prod.fst = js.map Prod.fst
  | [], h, fs, S, he => by
    rw [EncF] at he
    rw [he.1]
    rfl
  | (k, j) :: jrest, h, fs, S, he => by
    rw [EncF] at he
    obtain ⟨c, frest, Sc, Sr, rfl, _, hr, _, _⟩ := he
    simp only [List.map_cons]
    rw [EncF_keys jrest h frest Sr hr]

theorem EncF_nil_left (h : Heap) (js : List (String × Json)) (S : List Nat)
    (he : EncF h [] js S) : js = [] ∧ S = [] := by
  cases js with
  | nil => rw [EncF] at he; exact ⟨rfl, he.2⟩
  | cons kj jrest =>
    obtain ⟨k, j⟩ := kj
    rw [EncF] at he
    obtain ⟨c, frest, _, _, hfs, _⟩ := he
    cases hfs

theorem EncF_lookup : ∀ (js : List (String × Json)) (h : Heap)
    (fs : List (String × Nat)) (S : List Nat) (k : String) (c : Nat),
    EncF h fs js S → lookupF fs k = some c →
    ∃ jc Sc, Enc h c jc Sc ∧ ∀ a ∈ Sc, a ∈ S
  | [], h, fs, S, k, c, he, hl => by
    rw [EncF] at he
    rw [he.1] at hl
    cases hl
  | (k0, j0) :: jrest, h, fs, S, k, c, he, hl => by
    rw [EncF] at he
    obtain ⟨c0, frest, Sc, Sr, rfl, hc0, hr, _, rfl⟩ := he
    rw [lookupF] at hl
    by_cases hk : k0 = k
    · rw [if_pos hk] at hl
      injection hl with hl
      subst hl
      exact ⟨j0, Sc, hc0, fun a ha => by simp [ha]⟩
    · rw [if_neg hk] at hl
      obtain ⟨jc, Sc', hc', hsub⟩ := EncF_lookup jrest h frest Sr k c hr hl
      exact ⟨jc, Sc', hc', fun a ha => by simp [hsub a ha]⟩

theorem EncF_pairwise : ∀ (js : List (String × Json)) (h : Heap)
    (fs : List (String × Nat)) (S : List Nat) (k1 k2 : String) (c1 c2 : Nat)
    (j1 : Json) (S1 : List Nat) (j2 : Json) (S2 : List Nat),
    EncF h fs js S → k1 ≠ k2 →
    lookupF fs k1 = some c1 → lookupF fs k2 = some c2 →
    Enc h c1 j1 S1 → Enc h c2 j2 S2 →
    ∀ a ∈ S1, a ∉ S2
  | [], h, fs, S, k1, k2, c1, c2, j1, S1, j2, S2, he, _, hl1, _, _, _ => by
    rw [EncF] at he
    rw [he.1] at hl1
    cases hl1
  | (k0, j0) :: jrest, h, fs, S, k1, k2, c1, c2, j1, S1, j2, S2, he, hne,
      hl1, hl2, hc1, hc2 => by
    rw [EncF] at he
    obtain ⟨c0, frest, Sc0, Sr0, rfl, hc0, hr, hdisj, rfl⟩ := he
    rw [lookupF] at hl1 hl2
    by_cases hk1 : k0 = k1
    · rw [if_pos hk1] at hl1
      injection hl1 with hl1
      subst hl1
      have hk2 : ¬ (k0 = k2) := fun he2 => hne (hk1 ▸ he2 ▸ rfl)
      rw [if_neg hk2] at hl2
      obtain ⟨jc', Sc', hc', hsub⟩ := EncF_lookup jrest h frest Sr0 k2 c2 hr hl2
      obtain ⟨_, hS1⟩ := Enc_unique j1 h c0 S1 j0 Sc0 hc1 hc0
      obtain ⟨_, hS2⟩ := Enc_unique j2 h c2 S2 jc' Sc' hc2 hc'
      subst hS1
      subst hS2
      intro a ha hb
      exact hdisj a ha (hsub a hb)
    · rw [if_neg hk1] at hl1
      by_cases hk2 : k0 = k2
      · rw [if_pos hk2] at hl2
        injection hl2 with hl2
        subst hl2
        obtain ⟨jc', Sc', hc', hsub⟩ := EncF_lookup jrest h frest Sr0 k1 c1 hr hl1
        obtain ⟨_, hS1⟩ := Enc_unique j1 h c1 S1 jc' Sc' hc1 hc'
        obtain ⟨_, hS2⟩ := Enc_unique j2 h c0 S2 j0 Sc0 hc2 hc0
        subst hS1
        subst hS2
        intro a ha hb
        exact hdisj a hb (hsub a ha)
      · rw [if_neg hk2] at hl2
        exact EncF_pairwise jrest h frest Sr0 k1 k2 c1 c2 j1 S1 j2 S2
          hr hne hl1 hl2 hc1 hc2

/-- The combined supports of the (present) entries of `tfs` at a given key
list, each entry encoding a tree, supports pairwise disjoint. -/
def EncSel (h : Heap) (tfs : List (String × Nat)) : List String → List Nat → Prop
  | [], S => S = []
  | k :: ks, S =>
    match lookupF tfs k with
    | none => EncSel h tfs ks S
    | some c => ∃ jc Sc Sr, Enc h c jc Sc ∧ EncSel h tfs ks Sr ∧
        (∀ a ∈ Sc, a ∉ Sr) ∧ S = Sc ++ Sr

theorem EncSel_mem : ∀ (ks : List String) (h : Heap)
    (tfs : List (String × Nat)) (S : List Nat),
    EncSel h tfs ks S → ∀ a ∈ S,
      ∃ k', k' ∈ ks ∧ ∃ c' jc' Sc', lookupF tfs k' = some c' ∧
        Enc h c' jc' Sc' ∧ a ∈ Sc' := by
  intro ks
  induction ks with
  | nil =>
    intro h tfs S hsel a ha
    rw [EncSel] at hsel
    subst hsel
    cases ha
  | cons k ks ih =>
    intro h tfs S hsel a ha
    rw [EncSel] at hsel
    cases hl : lookupF tfs k with
    | none =>
      rw [hl] at hsel
      simp only at hsel
      obtain ⟨k', hk', rest⟩ := ih h tfs S hsel a ha
      exact ⟨k', by simp [hk'], rest⟩
    | some c =>
      rw [hl] at hsel
      simp only at hsel
      obtain ⟨jc, Sc, Sr, hc, hselr, hdisj, rfl⟩ := hsel
      rcases List.mem_append.mp ha with ha' | ha'
      · exact ⟨k, by simp, c, jc, Sc, hl, hc, ha'⟩
      · obtain ⟨k', hk', rest⟩ := ih h tfs Sr hselr a ha'
        exact ⟨k', by simp [hk'], rest⟩

theorem EncSel_congr_heap : ∀ (ks : List String) (h h' : Heap)
    (tfs : List (String × Nat)) (S : List Nat),
    EncSel h tfs ks S → (∀ b ∈ S, h'.get? b = h.get? b) →
    EncSel h' tfs ks S := by
  intro ks
  induction ks with
  | nil =>
    intro h h' tfs S hsel _
    rw [EncSel] at hsel ⊢
    exact hsel
  | cons k ks ih =>
    intro h h' tfs S hsel hag
    rw [EncSel] at hsel ⊢
    cases hl : lookupF tfs k with
    | none =>
      rw [hl] at hsel
      simp only at hsel ⊢
      exact ih h h' tfs S hsel hag
    | some c =>
      rw [hl] at hsel
      simp only at hsel ⊢
      obtain ⟨jc, Sc, Sr, hc, hselr, hdisj, rfl⟩ := hsel
      exact ⟨jc, Sc, Sr,
        Enc_congr jc h h' c Sc hc (fun b hb => hag b (by simp [hb])),
        ih h h' tfs Sr hselr (fun b hb => hag b (by simp [hb])), hdisj, rfl⟩

theorem EncSel_congr_tfs : ∀ (ks : List String) (h : Heap)
    (tfs tfs' : List (String × Nat)) (S : List Nat),
    (∀ k ∈ ks, lookupF tfs' k = lookupF tfs k) →
    EncSel h tfs ks S → EncSel h tfs' ks S := by
  intro ks
  induction ks with
  | nil =>
    intro h tfs tfs' S _ hsel
    rw [EncSel] at hsel ⊢
    exact hsel
  | cons k ks ih =>
    intro h tfs tfs' S hag hsel
    rw [EncSel] at hsel ⊢
    rw [hag k (by simp)]
    cases hl : lookupF tfs k with
    | none =>
      rw [hl] at hsel
      exact ih h tfs tfs' S (fun k' hk' => hag k' (by simp [hk'])) hsel
    | some c =>
      rw [hl] at hsel
      simp only at hsel ⊢
      obtain ⟨jc, Sc, Sr, hc, hselr, hdisj, rfl⟩ := hsel
      exact ⟨jc, Sc, Sr, hc,
        ih h tfs tfs' Sr (fun k' hk' => hag k' (by simp [hk'])) hselr, hdisj, rfl⟩

theorem nodupKeysF_cons' (k : String) (v : Json) (rest : List (String × Json))
    (h : nodupKeysF ((k, v) :: rest) = true) :
    (rest.map Prod.fst).contains k = false ∧ nodupKeys v = true ∧
      nodupKeysF rest = true := by
  have := nodupKeys_cons k v rest (by rw [nodupKeys]; exact h)
  exact ⟨this.1, this.2.1, by have h2 := this.2.2; rw [nodupKeys] at h2; exact h2⟩

theorem nodupKeysF_keys_nodup : ∀ (js : List (String × Json)),
    nodupKeysF js = true → (js.map Prod.fst).Nodup := by
  intro js
  induction js with
  | nil => intro _; exact List.nodup_nil
  | cons kj rest ih =>
    obtain ⟨k, v⟩ := kj
    intro h
    obtain ⟨hc, _, hrest⟩ := nodupKeysF_cons' k v rest h
    simp only [List.map_cons]
    rw [List.nodup_cons]
    exact ⟨by simpa using hc, ih hrest⟩

theorem EncSel_of_EncF : ∀ (ks : List String) (js : List (String × Json))
    (h : Heap) (fs : List (String × Nat)) (S : List Nat),
    EncF h fs js S → ks.Nodup →
    ∃ Ssel, EncSel h fs ks Ssel ∧ ∀ a ∈ Ssel, a ∈ S := by
  intro ks
  induction ks with
  | nil =>
    intro js h fs S _ _
    exact ⟨[], by rw [EncSel], fun a ha => by cases ha⟩
  | cons k ks ih =>
    intro js h fs S he hnd
    rw [List.nodup_cons] at hnd
    obtain ⟨hknot, hndks⟩ := hnd
    cases hl : lookupF fs k with
    | none =>
      obtain ⟨Ssel, hsel, hsub⟩ := ih js h fs S he hndks
      refine ⟨Ssel, ?_, hsub⟩
      rw [EncSel, hl]
      exact hsel
    | some c =>
      obtain ⟨jc, Sc, hc, hsubc⟩ := EncF_lookup js h fs S k c he hl
      obtain ⟨Sr, hselr, hsubr⟩ := ih js h fs S he hndks
      have hdisj : ∀ a ∈ Sc, a ∉ Sr := by
        intro a ha hb
        obtain ⟨k', hk', c', jc', Sc', hl', hc', ha'⟩ :=
          EncSel_mem ks h fs Sr hselr a hb
        have hne : k ≠ k' := fun he' => hknot (he' ▸ hk')
        exact EncF_pairwise js h fs S k k' c c' jc Sc jc' Sc'
          he hne hl hl' hc hc' a ha ha'
      refine ⟨Sc ++ Sr, ?_, ?_⟩
      · rw [EncSel, hl]
        exact ⟨jc, Sc, Sr, hc, hselr, hdisj, rfl⟩
      · intro a ha
        rcases List.mem_append.mp ha with ha' | ha'
        · exact hsubc a ha'
        · exact hsubr a ha'

theorem EncF_inv_cons (h : Heap) (k : String) (c : Nat)
    (frest : List (String × Nat)) (js : List (String × Json)) (S : List Nat)
    (he : EncF h ((k, c) :: frest) js S) :
    ∃ jv jrest Sc Sr, js = (k, jv) :: jrest ∧ Enc h c jv Sc ∧
      EncF h frest jrest Sr ∧ (∀ a ∈ Sc, a ∉ Sr) ∧ S = Sc ++ Sr := by
  cases js with
  | nil =>
    rw [EncF] at he
    cases he.1
  | cons kj jrest =>
    obtain ⟨k2, j2⟩ := kj
    rw [EncF] at he
    obtain ⟨c2, frest2, Sc, Sr, hfs, hc, hr, hd, rfl⟩ := he
    injection hfs with hfs1 hfs2
    injection hfs1 with hk hc2
    subst hk
    subst hc2
    subst hfs2
    exact ⟨j2, jrest, Sc, Sr, rfl, hc, hr, hd, rfl⟩

/-- The central frame lemma: a successful run of the heap-level merge loop
writes only to the target node and to the (tree-shaped, pairwise-disjoint)
target subtrees hanging at the pending keys — every other address, in
particular the whole source catalog, is untouched. -/
theorem copyMissingHLoop_frame :
    ∀ (fuel : Nat) (fl : List (String × Nat)) (jfl : List (String × Json))
      (Sfl : List Nat) (toA : Nat) (h h' : Heap) (tfs : List (String × Nat))
      (Ssel : List Nat),
      EncF h fl jfl Sfl →
      nodupKeysF jfl = true →
      h.get? toA = some (.obj tfs) →
      EncSel h tfs (fl.map Prod.fst) Ssel →
      toA ∉ Ssel →
      toA ∉ Sfl →
      (∀ a ∈ Sfl, a ∉ Ssel) →
      copyMissingHLoop fuel h fl toA = some h' →
      ∀ a, a ∉ toA :: Ssel → h'.get? a = h.get? a
  | fuel, [], jfl, Sfl, toA, h, h', tfs, Ssel, _, _, _, _, _, _, _, hrun => by
    rw [copyMissingHLoop] at hrun
    injection hrun with hrun
    subst hrun
    intro a _
    rfl
  | fuel, (k, va) :: flrest, jfl, Sfl, toA, h, h', tfs, Ssel, henc, hnd, hto,
      hsel, htoSel, htoF, hdisj, hrun => by
    obtain ⟨jv, jrest, Sva, Srf, rfl, hva, hrestF, hdisjF, rfl⟩ :=
      EncF_inv_cons h k va flrest jfl Sfl henc
    obtain ⟨hkc, hndv, hndrest⟩ := nodupKeysF_cons' k jv jrest hnd
    have hfkeys := EncF_keys jrest h flrest Srf hrestF
    have hknotin : k ∉ flrest.map Prod.fst := by
      rw [hfkeys]
      simpa using hkc
    rw [copyMissingHLoop] at hrun
    rw [hto] at hrun
    simp only at hrun
    simp only [List.map_cons] at hsel
    rw [EncSel] at hsel
    cases hl : lookupF tfs k with
    | none =>
      rw [hl] at hsel hrun
      simp only at hsel hrun
      have hagree : ∀ b, b ≠ toA →
          (h.set toA (.obj (tfs ++ [(k, va)]))).get? b = h.get? b :=
        fun b hb => get?_set_ne h toA b _ hb
      have hencF1 : EncF (h.set toA (.obj (tfs ++ [(k, va)]))) flrest jrest Srf :=
        EncF_congr jrest h _ flrest Srf hrestF
          (fun b hb => hagree b (fun he => htoF (by rw [← he]; simp [hb])))
      have hto1 : (h.set toA (.obj (tfs ++ [(k, va)]))).get? toA =
          some (.obj (tfs ++ [(k, va)])) := get?_set_self h toA _ _ hto
      have hsel1 : EncSel (h.set toA (.obj (tfs ++ [(k, va)])))
          (tfs ++ [(k, va)]) (flrest.map Prod.fst) Ssel := by
        refine EncSel_congr_heap _ h _ _ _ ?_
          (fun b hb => hagree b (fun he => htoSel (he ▸ hb)))
        refine EncSel_congr_tfs _ h tfs _ _ ?_ hsel
        intro k' hk'
        have hne : k' ≠ k := fun he => hknotin (he ▸ hk')
        exact lookupF_append_ne tfs k k' va hne
      have IH := copyMissingHLoop_frame fuel flrest jrest Srf toA
        (h.set toA (.obj (tfs ++ [(k, va)]))) h' (tfs ++ [(k, va)]) Ssel
        hencF1 hndrest hto1 hsel1 htoSel
        (fun hmem => htoF (by simp [hmem]))
        (fun a ha => hdisj a (by simp [ha])) hrun
      intro a ha
      rw [IH a ha, hagree a (fun he => ha (by rw [he]; simp))]
    | some wa =>
      rw [hl] at hsel hrun
      simp only at hsel hrun
      obtain ⟨jc, Sc, Sr, hjc, hselr, hdisjSel, rfl⟩ := hsel
      cases jv with
      | str s =>
        rw [Enc] at hva
        obtain ⟨hvag, rfl⟩ := hva
        rw [hvag] at hrun
        simp only at hrun
        have IH := copyMissingHLoop_frame fuel flrest jrest Srf toA h h' tfs Sr
          hrestF hndrest hto hselr
          (fun hmem => htoSel (by simp [hmem]))
          (fun hmem => htoF (by simp [hmem]))
          (fun a ha hb => hdisj a (by simp [ha]) (by simp [hb])) hrun
      -- narrow the final frame
        intro a ha
        refine IH a ?_
        intro hmem
        apply ha
        rcases List.mem_cons.mp hmem with rfl | hmem'
        · simp
        · simp [hmem']
      | obj jfv =>
        rw [Enc] at hva
        obtain ⟨fvs, Sva', hvag, hencfv, hvanotin, rfl⟩ := hva
        rw [hvag] at hrun
        simp only at hrun
        cases hrec : copyMissingH fuel h va wa with
        | none =>
          rw [hrec] at hrun
          cases hrun
        | some h2 =>
          rw [hrec] at hrun
          simp only at hrun
          cases fuel with
          | zero => rw [copyMissingH] at hrec; cases hrec
          | succ g =>
            rw [copyMissingH] at hrec
            rw [hvag] at hrec
            simp only at hrec
            have hndfv : nodupKeysF jfv = true := by
              rw [nodupKeys] at hndv
              exact hndv
            have hwaSel : wa ∈ Sc ++ Sr := by
              cases jc with
              | str s2 =>
                rw [Enc] at hjc
                obtain ⟨_, rfl⟩ := hjc
                simp
              | obj js2 =>
                rw [Enc] at hjc
                obtain ⟨_, _, _, _, _, rfl⟩ := hjc
                simp
            cases jc with
            | str swc =>
              rw [Enc] at hjc
              obtain ⟨hwag, rfl⟩ := hjc
              cases fvs with
              | cons f ffs =>
                rw [copyMissingHLoop] at hrec
                rw [hwag] at hrec
                cases hrec
              | nil =>
                rw [copyMissingHLoop] at hrec
                injection hrec with hrec
                subst hrec
                rw [hto] at hrun
                simp only at hrun
                rw [setF_id tfs k wa hl] at hrun
                rw [set_same h toA (.obj tfs) hto] at hrun
                have IH := copyMissingHLoop_frame (g + 1) flrest jrest Srf toA
                  h h' tfs Sr hrestF hndrest hto hselr
                  (fun hmem => htoSel (by simp [hmem]))
                  (fun hmem => htoF (by simp [hmem]))
                  (fun a ha hb => hdisj a (by simp [ha]) (by simp [hb])) hrun
                intro a ha
                refine IH a ?_
                intro hmem
                apply ha
                rcases List.mem_cons.mp hmem with rfl | hmem'
                · simp
                · simp [hmem']
            | obj jcs =>
              rw [Enc] at hjc
              obtain ⟨wfs, Sc', hwag, hencw, hwnotin, rfl⟩ := hjc
              have hkeysfv := EncF_keys jfv h fvs Sva' hencfv
              obtain ⟨S_inner, hselInner, hsubInner⟩ :=
                EncSel_of_EncF (fvs.map Prod.fst) jcs h wfs Sc' hencw
                  (by rw [hkeysfv]; exact nodupKeysF_keys_nodup jfv hndfv)
              have hwaSsel : wa ∈ (wa :: Sc') ++ Sr := by simp
              have hInner := copyMissingHLoop_frame g fvs jfv Sva' wa h h2 wfs
                S_inner hencfv hndfv hwag hselInner
                (fun hmem => hwnotin (hsubInner wa hmem))
                (fun hmem => hdisj wa (by simp [hmem]) hwaSsel)
                (fun a ha hb => hdisj a (by simp [ha])
                  (by simp [hsubInner a hb])) hrec
              have hawayInner : ∀ b, b ∉ (wa :: Sc') ++ Sr → b ∉ wa :: S_inner := by
                intro b hb hmem
                apply hb
                rcases List.mem_cons.mp hmem with rfl | hmem'
                · simp
                · simp [hsubInner b hmem']
              have htoA2 : h2.get? toA = some (.obj tfs) := by
                rw [hInner toA (hawayInner toA (fun hmem => htoSel hmem))]
                exact hto
              rw [htoA2] at hrun
              simp only at hrun
              rw [setF_id tfs k wa hl] at hrun
              rw [set_same h2 toA (.obj tfs) htoA2] at hrun
              have hWInotSr : ∀ b ∈ Sr, b ∉ wa :: S_inner := by
                intro b hb hmem
                rcases List.mem_cons.mp hmem with rfl | hmem'
                · exact hdisjSel b (by simp) hb
                · exact hdisjSel b (by simp [hsubInner b hmem']) hb
              have hencF2 : EncF h2 flrest jrest Srf :=
                EncF_congr jrest h h2 flrest Srf hrestF
                  (fun b hb => hInner b (fun hmem => hdisj b (by simp [hb])
                    (by rcases List.mem_cons.mp hmem with rfl | hmem'
                        · simp
                        · simp [hsubInner b hmem'])))
              have hsel2 : EncSel h2 tfs (flrest.map Prod.fst) Sr :=
                EncSel_congr_heap _ h h2 tfs Sr hselr
                  (fun b hb => hInner b (hWInotSr b hb))
              have IH := copyMissingHLoop_frame (g + 1) flrest jrest Srf toA
                h2 h' tfs Sr hencF2 hndrest htoA2 hsel2
                (fun hmem => htoSel (by simp [hmem]))
                (fun hmem => htoF (by simp [hmem]))
                (fun a ha hb => hdisj a (by simp [ha]) (by simp [hb])) hrun
              intro a ha
              have ha2 : a ∉ toA :: Sr := by
                intro hmem
                apply ha
                rcases List.mem_cons.mp hmem with rfl | hmem'
                · simp
                · simp [hmem']
              have ha3 : a ∉ wa :: S_inner := by
                refine hawayInner a ?_
                intro hmem
                apply ha
                simp at hmem ⊢
                tauto
              rw [IH a ha2, hInner a ha3]
termination_by fuel fl => (fuel, fl.length)
decreasing_by
  all_goals simp_wf
  all_goals subst_vars
  all_goals first
    | exact Prod.Lex.left _ _ (by omega)
    | exact Prod.Lex.right _ (by omega)

/-- C9. For a pair of catalogs laid out in the heap as two tree-shaped
object graphs with disjoint address supports (as when the two catalogs are
parsed from separate JSON files), a successful run of the heap-level
`copyMissing` leaves every address of the `from` (default) catalog with
exactly the heap value it had before the call: every key path and every
leaf value of the default catalog is unchanged, and the default catalog
still decodes to the very same `Json` tree on the very same addresses. -/
theorem claim9_copyMissing_never_mutates_from_catalog
    (fuel : Nat) (h h' : Heap) (fromA toA : Nat)
    (jfs jts : List (String × Json)) (Sf St : List Nat)
    (hf : Enc h fromA (.obj jfs) Sf) (ht : Enc h toA (.obj jts) St)
    (hnd : nodupKeysF jfs = true)
    (hdisj : ∀ a ∈ Sf, a ∉ St)
    (hrun : copyMissingH fuel h fromA toA = some h') :
    (∀ a ∈ Sf, h'.get? a = h.get? a) ∧ Enc h' fromA (.obj jfs) Sf := by
  have hf0 := hf
  cases fuel with
  | zero => rw [copyMissingH] at hrun; cases hrun
  | succ g =>
    rw [copyMissingH] at hrun
    rw [Enc] at hf
    obtain ⟨fs, Sf', hget, hencF, hnotin, rfl⟩ := hf
    rw [hget] at hrun
    simp only at hrun
    rw [Enc] at ht
    obtain ⟨tfs, St', htget, hencT, htnotin, rfl⟩ := ht
    have hkeys := EncF_keys jfs h fs Sf' hencF
    obtain ⟨Ssel, hsel, hsub⟩ :=
      EncSel_of_EncF (fs.map Prod.fst) jts h tfs St' hencT
        (by rw [hkeys]; exact nodupKeysF_keys_nodup jfs hnd)
    have hframe := copyMissingHLoop_frame g fs jfs Sf' toA h h' tfs Ssel
      hencF hnd htget hsel
      (fun hmem => htnotin (hsub toA hmem))
      (fun hmem => hdisj toA (by simp [hmem]) (by simp))
      (fun a ha hb => hdisj a (by simp [ha]) (by simp [hsub a hb])) hrun
    have hagree : ∀ a ∈ fromA :: Sf', h'.get? a = h.get? a := by
      intro a ha
      refine hframe a ?_
      intro hmem
      rcases List.mem_cons.mp hmem with rfl | hmem'
      · exact hdisj a ha (by simp)
      · exact hdisj a ha (by simp [hsub a hmem'])
    exact ⟨hagree, Enc_congr (.obj jfs) h h' fromA (fromA :: Sf') hf0 hagree⟩

theorem claim9_copyMissing_never_mutates_from_catalog_witness :
    (∀ a ∈ [0, 1],
      ([HVal.obj [("a", 1)], HVal.str "x", HVal.obj [("a", 1)]] : Heap).get? a =
      ([HVal.obj [("a", 1)], HVal.str "x", HVal.obj []] : Heap).get? a) ∧
    Enc [HVal.obj [("a", 1)], HVal.str "x", HVal.obj [("a", 1)]]
      0 (.obj [("a", Json.str "x")]) [0, 1] :=
  claim9_copyMissing_never_mutates_from_catalog 2
    [HVal.obj [("a", 1)], HVal.str "x", HVal.obj []]
    [HVal.obj [("a", 1)], HVal.str "x", HVal.obj [("a", 1)]]
    0 2 [("a", Json.str "x")] [] [0, 1] [2]
    (by
      rw [Enc]
      refine ⟨[("a", 1)], [1], rfl, ?_, by decide, rfl⟩
      rw [EncF]
      refine ⟨1, [], [1], [], rfl, ?_, ?_, by decide, rfl⟩
      · rw [Enc]; exact ⟨rfl, rfl⟩
      · rw [EncF]; exact ⟨rfl, rfl⟩)
    (by
      rw [Enc]
      refine ⟨[], [], rfl, ?_, by decide, rfl⟩
      rw [EncF]; exact ⟨rfl, rfl⟩)
    (by simp [nodupKeysF])
    (by decide)
    (by simp [copyMissingH, copyMissingHLoop, lookupF])

end EasyWww
